import Mathlib

/-!
# RogueSweeper board engine: a shallow embedding

This file embeds the board/game-state engine of the RogueSweeper
repository (`src/game/engine.py`, class `GameEngine`) into Lean 4 and
proves the specified properties about it.

Modelling conventions, chosen to match the Python source:

* Coordinates are pairs of integers `(row, col)`; Python integers are
  unbounded, so `Int` is used.
* The Python board dictionary stores `mines`, `revealed`, `flagged` and
  `immune_flags` as lists of pairs, but every operation converts them to
  sets (`GameEngine._to_coord_set`) before use and writes them back from
  sets, so membership is the only observable structure; they are embedded
  as `Finset (Int × Int)`.
* The `adjacent_counts` dictionary is read exclusively through
  `dict.get(key, 0)`, i.e. as a total function defaulting to `0` on
  absent keys; it is embedded as a total function `(Int × Int) → Nat`
  (`mkCounts` builds exactly the dictionary that `initialize_board`
  builds: entries for in-grid non-mine cells, default `0` elsewhere).
* `random.sample(all_cells, mine_count)` is embedded by passing the
  sampled list as an explicit argument; `ValidSample` states exactly what
  `random.sample` guarantees about its result (distinct elements of the
  population, of the requested length).  Theorems about randomized
  behaviour quantify over all valid samples.
* Python `ValueError` is embedded as `Except.error`.
* The flood-fill `while` loop is embedded as a fuel-indexed structural
  recursion; the fuel argument `9 * (rows * cols + 1)` is proved
  sufficient (`floodLoop_measure`-style lemmas below), so the embedded
  loop never exhausts it on the calls the engine makes.
-/

set_option maxHeartbeats 1000000

/-- `GameEngine.DIRECTIONS`: offsets of the 8 neighbours of a cell. -/
def DIRECTIONS : List (Int × Int) :=
  [(-1, -1), (-1, 0), (-1, 1), (0, -1), (0, 1), (1, -1), (1, 0), (1, 1)]

/-- The 8 neighbouring coordinates of a cell (before the bounds check). -/
def neighborsOf (p : Int × Int) : List (Int × Int) :=
  DIRECTIONS.map fun d => (p.1 + d.1, p.2 + d.2)

/-- The bounds check `0 <= r < rows and 0 <= c < cols` used throughout
the engine. -/
def inBounds (rows cols : Int) (p : Int × Int) : Bool :=
  decide (0 ≤ p.1) && decide (p.1 < rows) && decide (0 ≤ p.2) && decide (p.2 < cols)

/-- The set of all in-bounds cells of a `rows × cols` grid. -/
def gridCells (rows cols : Int) : Finset (Int × Int) :=
  Finset.Icc 0 (rows - 1) ×ˢ Finset.Icc 0 (cols - 1)

/-- The board state dictionary of `GameEngine` (see the docstring of the
class for the key layout). -/
structure BoardState where
  rows : Int
  cols : Int
  mines : Finset (Int × Int)
  revealed : Finset (Int × Int)
  flagged : Finset (Int × Int)
  immune_flags : Finset (Int × Int)
  adjacent_counts : (Int × Int) → Nat
  game_over : Bool
  won : Bool
  initialized : Bool

/-- The fresh, uninitialized board built by the web layer
(`views.py`: `{'rows': rows, 'cols': cols, 'initialized': False}`; all
other keys are absent and read through defaulting `.get` calls). -/
def freshBoard (rows cols : Int) : BoardState :=
  ⟨rows, cols, ∅, ∅, ∅, ∅, fun _ => 0, false, false, false⟩

/-- `GameEngine._count_adjacent_mines`. -/
def countAdjacentMines (row col rows cols : Int) (mines : Finset (Int × Int)) : Nat :=
  ((neighborsOf (row, col)).filter fun q => inBounds rows cols q && decide (q ∈ mines)).length

/-- The `adjacent_counts` dictionary built by `initialize_board`, read
through `.get(key, 0)`: in-grid non-mine cells carry their adjacent mine
count, every other key is absent and reads as `0`. -/
def mkCounts (rows cols : Int) (mines : Finset (Int × Int)) : (Int × Int) → Nat :=
  fun p =>
    if inBounds rows cols p ∧ p ∉ mines then countAdjacentMines p.1 p.2 rows cols mines
    else 0

/-- The excluded cells of `initialize_board`: the safe start plus its
in-bounds neighbours. -/
def excludedCells (rows cols : Int) (safe : Int × Int) : Finset (Int × Int) :=
  insert safe ((neighborsOf safe).filter (inBounds rows cols)).toFinset

/-- The population `all_cells` that `initialize_board` samples mines
from: all grid cells outside the excluded zone. -/
def availableCells (rows cols : Int) (safe : Int × Int) : Finset (Int × Int) :=
  gridCells rows cols \ excludedCells rows cols safe

/-- What `random.sample(all_cells, k)` guarantees about its result:
`k` distinct elements of the population. -/
def ValidSample (rows cols : Int) (safe : Int × Int) (k : Nat)
    (sample : List (Int × Int)) : Prop :=
  sample.Nodup ∧ sample.length = k ∧ ∀ p ∈ sample, p ∈ availableCells rows cols safe

/-- `GameEngine.initialize_board`, with the outcome of `random.sample`
passed in as `sample`. -/
def initialize_board (rows cols : Int) (mine_count : Nat) (safe : Int × Int)
    (sample : List (Int × Int)) : Except String BoardState :=
  if mine_count > (availableCells rows cols safe).card then
    .error "Cannot place mines: not enough cells available after excluding safe zone."
  else
    .ok ⟨rows, cols, sample.toFinset, ∅, ∅, ∅, mkCounts rows cols sample.toFinset,
      false, false, true⟩

/-- The iterative stack loop inside `GameEngine._flood_fill_reveal`,
with explicit fuel.  The Python loop keeps its stack at the end of a
list; here the head of the list is the top of the stack.  The final
revealed set does not depend on the traversal order.  A popped cell is
skipped when already revealed, flagged or mined; otherwise it is
revealed and, when its adjacent count reads `0`, its in-bounds
neighbours not yet revealed are pushed. -/
def floodLoop (rows cols : Int) (flagged mines : Finset (Int × Int))
    (counts : (Int × Int) → Nat) :
    Nat → Finset (Int × Int) → List (Int × Int) → Finset (Int × Int)
  | 0, rev, _ => rev
  | _ + 1, rev, [] => rev
  | fuel + 1, rev, p :: stack =>
    if p ∈ rev ∨ p ∈ flagged ∨ p ∈ mines then
      floodLoop rows cols flagged mines counts fuel rev stack
    else if counts p = 0 then
      floodLoop rows cols flagged mines counts fuel (insert p rev)
        (((neighborsOf p).filter fun q =>
            inBounds rows cols q && decide (q ∉ insert p rev)) ++ stack)
    else
      floodLoop rows cols flagged mines counts fuel (insert p rev) stack

/-- `GameEngine._flood_fill_reveal`.  The fuel `9 * (rows * cols + 1)`
dominates the loop's termination measure, so the loop always drains its
stack (proved below). -/
def flood_fill_reveal (start_row start_col rows cols : Int)
    (revealed flagged mines : Finset (Int × Int))
    (counts : (Int × Int) → Nat) : Finset (Int × Int) :=
  floodLoop rows cols flagged mines counts
    (9 * (rows.toNat * cols.toNat + 1)) revealed [(start_row, start_col)]

/-- `GameEngine._check_win_condition`: win once
`len(revealed) == rows*cols - len(mines)` (Python integer arithmetic). -/
def check_win_condition (board : BoardState) : BoardState :=
  if (board.revealed.card : Int) = board.rows * board.cols - (board.mines.card : Int) then
    { board with game_over := true, won := true }
  else board

/-- `GameEngine.reveal_cell`, with the sample for a potential deferred
initialization passed in as `sample`. -/
def reveal_cell (board : BoardState) (row col : Int) (mine_count : Option Nat)
    (sample : List (Int × Int)) : Except String BoardState :=
  if board.game_over then .ok board
  else if ¬ inBounds board.rows board.cols (row, col) then .ok board
  else do
    let board ←
      if board.initialized then pure board
      else
        match mine_count with
        | none => Except.error "mine_count must be provided for uninitialized board"
        | some k => initialize_board board.rows board.cols k (row, col) sample
    if (row, col) ∈ board.flagged ∨ (row, col) ∈ board.revealed then pure board
    else if (row, col) ∈ board.mines then
      pure { board with
        game_over := true, won := false, revealed := board.revealed ∪ board.mines }
    else
      let new_revealed := flood_fill_reveal row col board.rows board.cols
        board.revealed board.flagged board.mines board.adjacent_counts
      pure (check_win_condition { board with revealed := new_revealed })

/-- `GameEngine.toggle_flag`. -/
def toggle_flag (board : BoardState) (row col : Int) : BoardState :=
  if board.game_over then board
  else if ¬ inBounds board.rows board.cols (row, col) then board
  else if (row, col) ∈ board.revealed then board
  else if (row, col) ∈ board.immune_flags then board
  else if (row, col) ∈ board.flagged then
    { board with flagged := board.flagged.erase (row, col) }
  else
    { board with flagged := insert (row, col) board.flagged }

/-- `GameEngine.apply_clue`. -/
def apply_clue (board : BoardState) (row col : Int) (mine_count : Option Nat)
    (sample : List (Int × Int)) : Except String BoardState :=
  if board.game_over then .ok board
  else if ¬ inBounds board.rows board.cols (row, col) then .ok board
  else if ¬ board.initialized then reveal_cell board row col mine_count sample
  else if (row, col) ∈ board.revealed ∨ (row, col) ∈ board.flagged then .ok board
  else if (row, col) ∈ board.mines then
    .ok { board with
      flagged := insert (row, col) board.flagged,
      immune_flags := insert (row, col) board.immune_flags }
  else reveal_cell board row col none sample

/-- The loop at the end of `GameEngine.chord_reveal`: reveal each listed
neighbour that was neither flagged nor revealed when the chord started,
one at a time, stopping as soon as a reveal ends the game. -/
def chordLoop (flagged revealed : Finset (Int × Int)) :
    List (Int × Int) → BoardState → Except String BoardState
  | [], b => .ok b
  | q :: rest, b =>
    if q ∉ flagged ∧ q ∉ revealed then
      match reveal_cell b q.1 q.2 none [] with
      | .error e => .error e
      | .ok b' => if b'.game_over then .ok b' else chordLoop flagged revealed rest b'
    else chordLoop flagged revealed rest b

/-- `GameEngine.chord_reveal`. -/
def chord_reveal (board : BoardState) (row col : Int) : Except String BoardState :=
  if board.game_over then .ok board
  else if ¬ inBounds board.rows board.cols (row, col) then .ok board
  else if (row, col) ∉ board.revealed then .ok board
  else
    let adjacent_count := board.adjacent_counts (row, col)
    if adjacent_count = 0 then .ok board
    else
      let neighbors := (neighborsOf (row, col)).filter (inBounds board.rows board.cols)
      let adjacent_flags := (neighbors.filter fun q => decide (q ∈ board.flagged)).length
      if adjacent_flags ≠ adjacent_count then .ok board
      else chordLoop board.flagged board.revealed neighbors board

/-- The cell states of the `cells` grid produced by
`GameEngine.render_for_frontend` (the `str | int` union of the source). -/
inductive CellState where
  | hidden
  | flaggedCell
  | flaggedImmune
  | mineCell
  | mineHit
  | count (n : Nat)
deriving DecidableEq, Repr

/-- The state of one cell in the client view: the if/elif chain of
`render_for_frontend`. -/
def cellState (board : BoardState) (reveal_mines : Bool) (r c : Int) : CellState :=
  if (r, c) ∈ board.revealed then
    if (r, c) ∈ board.mines then .mineHit
    else .count (board.adjacent_counts (r, c))
  else if (r, c) ∈ board.immune_flags then .flaggedImmune
  else if (r, c) ∈ board.flagged then .flaggedCell
  else if reveal_mines && decide ((r, c) ∈ board.mines) then .mineCell
  else .hidden

/-- The sanitized dictionary returned by `render_for_frontend`. -/
structure ClientView where
  rows : Int
  cols : Int
  cells : List (List CellState)
  game_over : Bool
  won : Bool
  flags_count : Nat
  mines_count : Nat
  revealed_count : Nat
  initialized : Bool

/-- `GameEngine.render_for_frontend`. -/
def render_for_frontend (board : BoardState) (show_all : Bool) : ClientView :=
  let reveal_mines := show_all || board.game_over
  { rows := board.rows
    cols := board.cols
    cells := (List.range board.rows.toNat).map fun r =>
      (List.range board.cols.toNat).map fun c =>
        cellState board reveal_mines (Int.ofNat r) (Int.ofNat c)
    game_over := board.game_over
    won := board.won
    flags_count := board.flagged.card
    mines_count := board.mines.card
    revealed_count := board.revealed.card
    initialized := board.initialized }

/-- Extract the board from an engine result, with a fallback for the
error case (used only to name concrete states in example runs). -/
def okOr (fallback : BoardState) : Except String BoardState → BoardState
  | .ok b => b
  | .error _ => fallback

/-- One hop of the reveal traversal: from a zero-count cell to an
in-bounds neighbour that is neither flagged, nor a mine, nor revealed
before the flood fill started (`base` is the revealed set at the start
of the flood fill). -/
def RStep (rows cols : Int) (flagged mines base : Finset (Int × Int))
    (counts : (Int × Int) → Nat) (a b : Int × Int) : Prop :=
  counts a = 0 ∧ b ∈ neighborsOf a ∧ inBounds rows cols b = true ∧
    b ∉ flagged ∧ b ∉ mines ∧ b ∉ base

/-- Cells reached by the flood fill started at `start`. -/
def FloodReach (rows cols : Int) (flagged mines base : Finset (Int × Int))
    (counts : (Int × Int) → Nat) (start p : Int × Int) : Prop :=
  Relation.ReflTransGen (RStep rows cols flagged mines base counts) start p

/-- Sequential reveal of a list of cells, one at a time, stopping as
soon as a reveal ends the game (the spec's description of the chord
body). -/
def revealSeq : List (Int × Int) → BoardState → Except String BoardState
  | [], b => .ok b
  | q :: rest, b =>
    match reveal_cell b q.1 q.2 none [] with
    | .error e => .error e
    | .ok b' => if b'.game_over then .ok b' else revealSeq rest b'

/-- The spec's description of `chordReveal`: return the state unchanged
if the game is over, the target is out of bounds or not revealed, its
adjacent count is zero, or the number of flagged in-bounds neighbours
differs from that count; otherwise reveal each unflagged, unrevealed
neighbour one at a time via `reveal`, short-circuiting as soon as a
reveal sets `game_over`. -/
def chordRevealSpec (s : BoardState) (row col : Int) : Except String BoardState :=
  if s.game_over = true ∨ ¬ inBounds s.rows s.cols (row, col) = true ∨
      (row, col) ∉ s.revealed ∨ s.adjacent_counts (row, col) = 0 ∨
      (((neighborsOf (row, col)).filter (inBounds s.rows s.cols)).filter
        fun q => decide (q ∈ s.flagged)).length ≠ s.adjacent_counts (row, col) then
    .ok s
  else
    revealSeq (((neighborsOf (row, col)).filter (inBounds s.rows s.cols)).filter
      fun q => decide (q ∉ s.flagged ∧ q ∉ s.revealed)) s

/-- One hop of the spec's connected zero-region: move to an in-bounds
neighbour whose adjacent count reads zero. -/
def ZStep (s : BoardState) (a b : Int × Int) : Prop :=
  b ∈ neighborsOf a ∧ inBounds s.rows s.cols b = true ∧ s.adjacent_counts b = 0

/-- The connected zero-region of the board containing `start`. -/
def InZeroRegion (s : BoardState) (start p : Int × Int) : Prop :=
  Relation.ReflTransGen (ZStep s) start p

/-- The numbered cells bordering the zero-region of `start`. -/
def InBorder (s : BoardState) (start q : Int × Int) : Prop :=
  ¬ InZeroRegion s start q ∧ inBounds s.rows s.cols q = true ∧
    ∃ p, InZeroRegion s start p ∧ q ∈ neighborsOf p

/-- The board's `adjacent_counts` dictionary is the one the engine
builds at initialization.  This holds for every reachable initialized
state (`ReachInv.counts_eq`). -/
def countsCorrect (s : BoardState) : Prop :=
  s.adjacent_counts = mkCounts s.rows s.cols s.mines

/-- The guarantee the engine gets from `random.sample` on a call that
may initialize the board: either the board is already initialized (so
the sample is unused), or the sample is a valid outcome of sampling for
the clicked safe cell. -/
def SampleOK (s : BoardState) (row col : Int) (mc : Option Nat)
    (sample : List (Int × Int)) : Prop :=
  s.initialized = true ∨
    ∃ k, mc = some k ∧ ValidSample s.rows s.cols (row, col) k sample

/-- One successful engine action. -/
inductive Step : BoardState → BoardState → Prop where
  | reveal {s t : BoardState} (row col : Int) (mc : Option Nat)
      (sample : List (Int × Int)) :
      SampleOK s row col mc sample →
      reveal_cell s row col mc sample = .ok t → Step s t
  | toggle (s : BoardState) (row col : Int) : Step s (toggle_flag s row col)
  | clue {s t : BoardState} (row col : Int) (mc : Option Nat)
      (sample : List (Int × Int)) :
      SampleOK s row col mc sample →
      apply_clue s row col mc sample = .ok t → Step s t
  | chord {s t : BoardState} (row col : Int) :
      chord_reveal s row col = .ok t → Step s t

/-- A state a game can start from: a fresh uninitialized board with
positive dimensions, or the output of a direct `initialize_board` call
with an in-bounds safe cell and a valid sample. -/
def InitialState (s : BoardState) : Prop :=
  (∃ rows cols : Int, 0 < rows ∧ 0 < cols ∧ s = freshBoard rows cols) ∨
  (∃ (rows cols : Int) (k : Nat) (safe : Int × Int) (sample : List (Int × Int)),
    inBounds rows cols safe = true ∧ ValidSample rows cols safe k sample ∧
    initialize_board rows cols k safe sample = .ok s)

/-- Board states reachable by a sequence of engine actions from an
initial state. -/
def Reachable (s : BoardState) : Prop :=
  ∃ s₀, InitialState s₀ ∧ Relation.ReflTransGen Step s₀ s

/-- The inductive invariant of reachable board states. -/
structure ReachInv (s : BoardState) : Prop where
  rows_pos : 0 < s.rows
  cols_pos : 0 < s.cols
  mines_sub : s.mines ⊆ gridCells s.rows s.cols
  revealed_sub : s.revealed ⊆ gridCells s.rows s.cols
  flagged_sub : s.flagged ⊆ gridCells s.rows s.cols
  immune_sub : s.immune_flags ⊆ s.flagged
  uninit : s.initialized = false →
    s.mines = ∅ ∧ s.revealed = ∅ ∧ s.immune_flags = ∅ ∧
      s.game_over = false ∧ s.won = false
  counts_eq : s.initialized = true →
    s.adjacent_counts = mkCounts s.rows s.cols s.mines
  not_lost : ¬(s.game_over = true ∧ s.won = false) →
    Disjoint s.revealed s.mines ∧ Disjoint s.flagged s.revealed
  won_over : s.won = true → s.game_over = true
  win_iff : s.initialized = true →
    (s.won = true ↔ s.revealed = gridCells s.rows s.cols \ s.mines)

/-! ## Concrete example runs used by witnesses and counterexamples -/

def bA0 : BoardState := freshBoard 1 6

/-- First click at (0,0) on the 1×6 board, sampling mines (0,2), (0,4):
flood fill reveals (0,0) and (0,1). -/
def sA1 : BoardState := okOr bA0 (reveal_cell bA0 0 0 (some 2) [(0, 2), (0, 4)])

/-- Flag the mine (0,2). -/
def sA2 : BoardState := toggle_flag sA1 0 2

/-- Reveal the other mine (0,4): a losing reveal. -/
def sA3 : BoardState := okOr bA0 (reveal_cell sA2 0 4 none [])

/-- Clue on the mine (0,2) from sA1: immune flag, no loss. -/
def sAclue : BoardState := okOr bA0 (apply_clue sA1 0 2 none [])

/-- Reveal (0,3) from sA1. -/
def sA4 : BoardState := okOr bA0 (reveal_cell sA1 0 3 none [])

/-- Reveal (0,5): completes the board, winning state. -/
def sA5 : BoardState := okOr bA0 (reveal_cell sA4 0 5 none [])

def bB0 : BoardState := freshBoard 1 7

/-- First click at (0,6) on the 1×7 board, sampling the single mine
(0,3): flood fill reveals (0,4), (0,5), (0,6). -/
def sB1 : BoardState := okOr bB0 (reveal_cell bB0 0 6 (some 1) [(0, 3)])

/-- Flag (0,1), a zero-count cell inside the zero-region of (0,0). -/
def sB2 : BoardState := toggle_flag sB1 0 1

/-- Reveal (0,0): the flag at (0,1) blocks the flood fill, so only
(0,0) is newly revealed. -/
def sB3 : BoardState := okOr bB0 (reveal_cell sB2 0 0 none [])

/-- A freshly initialized 1×7 board (no flags, nothing revealed). -/
def sW : BoardState := okOr bB0 (initialize_board 1 7 1 (0, 6) [(0, 3)])

/-! ## Basic lemmas about the grid and bounds check -/

theorem inBounds_iff (rows cols : Int) (p : Int × Int) :
    inBounds rows cols p = true ↔ 0 ≤ p.1 ∧ p.1 < rows ∧ 0 ≤ p.2 ∧ p.2 < cols := by
  simp [inBounds, and_assoc]

theorem mem_gridCells (rows cols : Int) (p : Int × Int) :
    p ∈ gridCells rows cols ↔ inBounds rows cols p = true := by
  rw [inBounds_iff]
  simp only [gridCells, Finset.mem_product, Finset.mem_Icc]
  omega

theorem gridCells_card (rows cols : Int) :
    (gridCells rows cols).card = rows.toNat * cols.toNat := by
  simp [gridCells, Int.card_Icc]

theorem neighborsOf_length (p : Int × Int) : (neighborsOf p).length = 8 := rfl

theorem mem_neighborsOf {p q : Int × Int} :
    q ∈ neighborsOf p ↔ ∃ d ∈ DIRECTIONS, q = (p.1 + d.1, p.2 + d.2) := by
  simp [neighborsOf, eq_comm]

/-! ## Flood-fill loop: monotonicity, boundedness, coverage, closure,
soundness -/

section FloodLoop

variable (rows cols : Int) (flagged mines : Finset (Int × Int))
  (counts : (Int × Int) → Nat)

/-- The revealed set only grows during the flood-fill loop. -/
theorem floodLoop_mono (fuel : Nat) :
    ∀ (rev : Finset (Int × Int)) (stack : List (Int × Int)),
      rev ⊆ floodLoop rows cols flagged mines counts fuel rev stack := by
  induction fuel with
  | zero => intro rev stack; simp [floodLoop]
  | succ n ih =>
    intro rev stack
    cases stack with
    | nil => simp [floodLoop]
    | cons p rest =>
      simp only [floodLoop]
      split_ifs with h1 h2
      · exact ih rev rest
      · exact (Finset.subset_insert _ _).trans (ih _ _)
      · exact (Finset.subset_insert _ _).trans (ih _ _)

/-- Every cell the flood-fill loop adds is in bounds, unflagged and not
a mine (given that the stack holds only in-bounds cells). -/
theorem floodLoop_adds (fuel : Nat) :
    ∀ (rev : Finset (Int × Int)) (stack : List (Int × Int)),
      (∀ p ∈ stack, inBounds rows cols p = true) →
      ∀ q ∈ floodLoop rows cols flagged mines counts fuel rev stack,
        q ∈ rev ∨ (inBounds rows cols q = true ∧ q ∉ flagged ∧ q ∉ mines) := by
  induction fuel with
  | zero => intro rev stack _ q hq; simp only [floodLoop] at hq; exact Or.inl hq
  | succ n ih =>
    intro rev stack hstack q hq
    cases stack with
    | nil => simp only [floodLoop] at hq; exact Or.inl hq
    | cons p rest =>
      simp only [floodLoop] at hq
      split_ifs at hq with h1 h2
      · exact ih rev rest (fun x hx => hstack x (List.mem_cons_of_mem _ hx)) q hq
      · push_neg at h1
        have hpush : ∀ x ∈ ((neighborsOf p).filter fun q =>
            inBounds rows cols q && decide (q ∉ insert p rev)) ++ rest,
            inBounds rows cols x = true := by
          intro x hx
          rcases List.mem_append.1 hx with hx | hx
          · have hf := (List.mem_filter.1 hx).2
            simp only [Bool.and_eq_true, decide_eq_true_eq] at hf
            exact hf.1
          · exact hstack x (List.mem_cons_of_mem _ hx)
        rcases ih _ _ hpush q hq with h | h
        · rcases Finset.mem_insert.1 h with rfl | h
          · exact Or.inr ⟨hstack q (List.mem_cons_self _ _), h1.2.1, h1.2.2⟩
          · exact Or.inl h
        · exact Or.inr h
      · push_neg at h1
        rcases ih _ _ (fun x hx => hstack x (List.mem_cons_of_mem _ hx)) q hq with h | h
        · rcases Finset.mem_insert.1 h with rfl | h
          · exact Or.inr ⟨hstack q (List.mem_cons_self _ _), h1.2.1, h1.2.2⟩
          · exact Or.inl h
        · exact Or.inr h

/-- Measure accounting for the loop: revealing an unrevealed grid cell
shrinks `grid \ rev` by one. -/
theorem sdiff_insert_card (p : Int × Int) (rev : Finset (Int × Int))
    (hg : p ∈ gridCells rows cols) (hr : p ∉ rev) :
    (gridCells rows cols \ insert p rev).card
      = (gridCells rows cols \ rev).card - 1 ∧
      1 ≤ (gridCells rows cols \ rev).card := by
  have hmem : p ∈ gridCells rows cols \ rev := Finset.mem_sdiff.2 ⟨hg, hr⟩
  have hset : gridCells rows cols \ insert p rev = (gridCells rows cols \ rev).erase p := by
    ext q
    simp only [Finset.mem_sdiff, Finset.mem_insert, Finset.mem_erase]
    tauto
  refine ⟨?_, Finset.card_pos.2 ⟨p, hmem⟩⟩
  rw [hset, Finset.card_erase_of_mem hmem]

/-- With fuel at least the loop measure, every cell on the stack is
eventually processed: it ends up revealed unless it is flagged or a
mine. -/
theorem floodLoop_covers (fuel : Nat) :
    ∀ (rev : Finset (Int × Int)) (stack : List (Int × Int)),
      (∀ p ∈ stack, p ∈ gridCells rows cols) →
      9 * (gridCells rows cols \ rev).card + stack.length ≤ fuel →
      ∀ q ∈ stack,
        q ∈ floodLoop rows cols flagged mines counts fuel rev stack ∨
          q ∈ flagged ∨ q ∈ mines := by
  induction fuel with
  | zero =>
    intro rev stack _ hfuel q hq
    have := List.length_pos_of_mem hq
    omega
  | succ n ih =>
    intro rev stack hstack hfuel q hq
    cases stack with
    | nil => exact absurd hq (List.not_mem_nil q)
    | cons p rest =>
      have hrest_grid : ∀ x ∈ rest, x ∈ gridCells rows cols :=
        fun x hx => hstack x (List.mem_cons_of_mem _ hx)
      simp only [floodLoop]
      split_ifs with h1 h2
      · -- skip: p already revealed, flagged or mined
        rcases List.mem_cons.1 hq with rfl | hq'
        · rcases h1 with h | h | h
          · exact Or.inl (floodLoop_mono rows cols flagged mines counts n rev rest h)
          · exact Or.inr (Or.inl h)
          · exact Or.inr (Or.inr h)
        · refine ih rev rest hrest_grid ?_ q hq'
          simp only [List.length_cons] at hfuel
          omega
      · -- reveal p, push unrevealed in-bounds neighbours
        push_neg at h1
        have hpg : p ∈ gridCells rows cols := hstack p (List.mem_cons_self _ _)
        obtain ⟨hcard, hpos⟩ :=
          sdiff_insert_card rows cols p rev hpg h1.1
        have hpushlen :
            (((neighborsOf p).filter fun x =>
                inBounds rows cols x && decide (x ∉ insert p rev))).length ≤ 8 := by
          have := List.length_filter_le (fun x =>
            inBounds rows cols x && decide (x ∉ insert p rev)) (neighborsOf p)
          simpa [neighborsOf_length] using this
        have hpush_grid : ∀ x ∈ ((neighborsOf p).filter fun x =>
            inBounds rows cols x && decide (x ∉ insert p rev)) ++ rest,
            x ∈ gridCells rows cols := by
          intro x hx
          rcases List.mem_append.1 hx with hx | hx
          · have hf := (List.mem_filter.1 hx).2
            simp only [Bool.and_eq_true, decide_eq_true_eq] at hf
            exact (mem_gridCells rows cols x).2 hf.1
          · exact hrest_grid x hx
        have hfuel' : 9 * (gridCells rows cols \ insert p rev).card +
            (((neighborsOf p).filter fun x =>
                inBounds rows cols x && decide (x ∉ insert p rev)) ++ rest).length ≤ n := by
          simp only [List.length_append, List.length_cons] at hfuel ⊢
          omega
        rcases List.mem_cons.1 hq with rfl | hq'
        · exact Or.inl (floodLoop_mono rows cols flagged mines counts n _ _
            (Finset.mem_insert_self q rev))
        · exact ih _ _ hpush_grid hfuel' q (List.mem_append.2 (Or.inr hq'))
      · -- reveal p, no pushes (numbered cell)
        push_neg at h1
        have hpg : p ∈ gridCells rows cols := hstack p (List.mem_cons_self _ _)
        obtain ⟨hcard, hpos⟩ :=
          sdiff_insert_card rows cols p rev hpg h1.1
        have hfuel' : 9 * (gridCells rows cols \ insert p rev).card + rest.length ≤ n := by
          simp only [List.length_cons] at hfuel
          omega
        rcases List.mem_cons.1 hq with rfl | hq'
        · exact Or.inl (floodLoop_mono rows cols flagged mines counts n _ _
            (Finset.mem_insert_self q rev))
        · exact ih _ _ hrest_grid hfuel' q hq'

/-- Closure of the loop's result: a newly revealed zero-count cell has
all its eligible in-bounds neighbours revealed as well (given sufficient
fuel). -/
theorem floodLoop_closed (fuel : Nat) :
    ∀ (rev : Finset (Int × Int)) (stack : List (Int × Int)),
      (∀ p ∈ stack, p ∈ gridCells rows cols) →
      9 * (gridCells rows cols \ rev).card + stack.length ≤ fuel →
      ∀ p, p ∈ floodLoop rows cols flagged mines counts fuel rev stack → p ∉ rev →
        counts p = 0 →
        ∀ q ∈ neighborsOf p, inBounds rows cols q = true →
          q ∈ floodLoop rows cols flagged mines counts fuel rev stack ∨
            q ∈ flagged ∨ q ∈ mines := by
  induction fuel with
  | zero =>
    intro rev stack _ _ p hp hpr
    simp only [floodLoop] at hp
    exact absurd hp hpr
  | succ n ih =>
    intro rev stack hstack hfuel p hp hpr hp0 q hqn hqb
    cases stack with
    | nil =>
      simp only [floodLoop] at hp
      exact absurd hp hpr
    | cons hd rest =>
      have hrest_grid : ∀ x ∈ rest, x ∈ gridCells rows cols :=
        fun x hx => hstack x (List.mem_cons_of_mem _ hx)
      simp only [floodLoop] at hp ⊢
      split_ifs at hp ⊢ with h1 h2
      · simp only [List.length_cons] at hfuel
        exact ih rev rest hrest_grid (by omega) p hp hpr hp0 q hqn hqb
      · -- hd was revealed with zero count and its neighbours pushed
        push_neg at h1
        have hhdg : hd ∈ gridCells rows cols := hstack hd (List.mem_cons_self _ _)
        obtain ⟨hcard, hpos⟩ :=
          sdiff_insert_card rows cols hd rev hhdg h1.1
        have hpush_grid : ∀ x ∈ ((neighborsOf hd).filter fun x =>
            inBounds rows cols x && decide (x ∉ insert hd rev)) ++ rest,
            x ∈ gridCells rows cols := by
          intro x hx
          rcases List.mem_append.1 hx with hx | hx
          · have hf := (List.mem_filter.1 hx).2
            simp only [Bool.and_eq_true, decide_eq_true_eq] at hf
            exact (mem_gridCells rows cols x).2 hf.1
          · exact hrest_grid x hx
        have hfuel' : 9 * (gridCells rows cols \ insert hd rev).card +
            (((neighborsOf hd).filter fun x =>
                inBounds rows cols x && decide (x ∉ insert hd rev)) ++ rest).length ≤ n := by
          have hpushlen :
              (((neighborsOf hd).filter fun x =>
                  inBounds rows cols x && decide (x ∉ insert hd rev))).length ≤ 8 := by
            have := List.length_filter_le (fun x =>
              inBounds rows cols x && decide (x ∉ insert hd rev)) (neighborsOf hd)
            simpa [neighborsOf_length] using this
          simp only [List.length_append, List.length_cons] at hfuel ⊢
          omega
        by_cases hphd : p = hd
        · -- the revealed cell is hd itself: its neighbours were pushed
          subst hphd
          by_cases hqrev : q ∈ insert p rev
          · exact Or.inl (floodLoop_mono rows cols flagged mines counts n _ _ hqrev)
          · have hqpush : q ∈ ((neighborsOf p).filter fun x =>
                inBounds rows cols x && decide (x ∉ insert p rev)) ++ rest := by
              refine List.mem_append.2 (Or.inl (List.mem_filter.2 ⟨hqn, ?_⟩))
              simp [hqb, hqrev]
            exact floodLoop_covers rows cols flagged mines counts n _ _
              hpush_grid hfuel' q hqpush
        · have hpr' : p ∉ insert hd rev := by
            simp only [Finset.mem_insert]
            tauto
          exact ih _ _ hpush_grid hfuel' p hp hpr' hp0 q hqn hqb
      · -- hd was revealed with nonzero count
        push_neg at h1
        have hhdg : hd ∈ gridCells rows cols := hstack hd (List.mem_cons_self _ _)
        obtain ⟨hcard, hpos⟩ :=
          sdiff_insert_card rows cols hd rev hhdg h1.1
        have hfuel' : 9 * (gridCells rows cols \ insert hd rev).card + rest.length ≤ n := by
          simp only [List.length_cons] at hfuel
          omega
        by_cases hphd : p = hd
        · subst hphd; exact absurd hp0 h2
        · have hpr' : p ∉ insert hd rev := by
            simp only [Finset.mem_insert]
            tauto
          exact ih _ _ hrest_grid hfuel' p hp hpr' hp0 q hqn hqb

end FloodLoop

section FloodSound

variable (rows cols : Int) (flagged mines : Finset (Int × Int))
  (counts : (Int × Int) → Nat)

/-- Soundness of the loop: everything it reveals beyond `rev` is
reachable from `start` along `RStep` hops. -/
theorem floodLoop_sound (base : Finset (Int × Int)) (start : Int × Int) (fuel : Nat) :
    ∀ (rev : Finset (Int × Int)) (stack : List (Int × Int)),
      base ⊆ rev →
      (∀ x ∈ stack, x ∈ rev ∨ x ∈ flagged ∨ x ∈ mines ∨
        FloodReach rows cols flagged mines base counts start x) →
      ∀ p ∈ floodLoop rows cols flagged mines counts fuel rev stack,
        p ∈ rev ∨ FloodReach rows cols flagged mines base counts start p := by
  induction fuel with
  | zero => intro rev stack _ _ p hp; simp only [floodLoop] at hp; exact Or.inl hp
  | succ n ih =>
    intro rev stack hbase hstack p hp
    cases stack with
    | nil => simp only [floodLoop] at hp; exact Or.inl hp
    | cons hd rest =>
      have hrest : ∀ x ∈ rest, x ∈ rev ∨ x ∈ flagged ∨ x ∈ mines ∨
          FloodReach rows cols flagged mines base counts start x :=
        fun x hx => hstack x (List.mem_cons_of_mem _ hx)
      simp only [floodLoop] at hp
      split_ifs at hp with h1 h2
      · exact ih rev rest hbase hrest p hp
      · push_neg at h1
        have hreach : FloodReach rows cols flagged mines base counts start hd := by
          rcases hstack hd (List.mem_cons_self _ _) with h | h | h | h
          · exact absurd h h1.1
          · exact absurd h h1.2.1
          · exact absurd h h1.2.2
          · exact h
        have hstack' : ∀ x ∈ ((neighborsOf hd).filter fun x =>
            inBounds rows cols x && decide (x ∉ insert hd rev)) ++ rest,
            x ∈ insert hd rev ∨ x ∈ flagged ∨ x ∈ mines ∨
              FloodReach rows cols flagged mines base counts start x := by
          intro x hx
          rcases List.mem_append.1 hx with hx | hx
          · have hxn := (List.mem_filter.1 hx).1
            have hf := (List.mem_filter.1 hx).2
            simp only [Bool.and_eq_true, decide_eq_true_eq] at hf
            by_cases hxf : x ∈ flagged
            · exact Or.inr (Or.inl hxf)
            by_cases hxm : x ∈ mines
            · exact Or.inr (Or.inr (Or.inl hxm))
            refine Or.inr (Or.inr (Or.inr (hreach.tail ?_)))
            exact ⟨h2, hxn, hf.1, hxf, hxm, fun hb =>
              hf.2 (Finset.mem_insert_of_mem (hbase hb))⟩
          · rcases hrest x hx with h | h | h | h
            · exact Or.inl (Finset.mem_insert_of_mem h)
            · exact Or.inr (Or.inl h)
            · exact Or.inr (Or.inr (Or.inl h))
            · exact Or.inr (Or.inr (Or.inr h))
        rcases ih (insert hd rev) _ (hbase.trans (Finset.subset_insert _ _)) hstack' p hp
          with h | h
        · rcases Finset.mem_insert.1 h with rfl | h
          · exact Or.inr hreach
          · exact Or.inl h
        · exact Or.inr h
      · push_neg at h1
        have hreach : FloodReach rows cols flagged mines base counts start hd := by
          rcases hstack hd (List.mem_cons_self _ _) with h | h | h | h
          · exact absurd h h1.1
          · exact absurd h h1.2.1
          · exact absurd h h1.2.2
          · exact h
        have hrest' : ∀ x ∈ rest, x ∈ insert hd rev ∨ x ∈ flagged ∨ x ∈ mines ∨
            FloodReach rows cols flagged mines base counts start x := by
          intro x hx
          rcases hrest x hx with h | h | h | h
          · exact Or.inl (Finset.mem_insert_of_mem h)
          · exact Or.inr (Or.inl h)
          · exact Or.inr (Or.inr (Or.inl h))
          · exact Or.inr (Or.inr (Or.inr h))
        rcases ih (insert hd rev) rest (hbase.trans (Finset.subset_insert _ _)) hrest' p hp
          with h | h
        · rcases Finset.mem_insert.1 h with rfl | h
          · exact Or.inr hreach
          · exact Or.inl h
        · exact Or.inr h

/-- Full characterization of `GameEngine._flood_fill_reveal`: starting
from an eligible cell, the resulting revealed set is exactly the old
revealed set plus the cells reachable along `RStep` hops. -/
theorem flood_fill_spec (base : Finset (Int × Int)) (start : Int × Int)
    (hb : inBounds rows cols start = true) (hf : start ∉ flagged)
    (hm : start ∉ mines) (hr : start ∉ base) :
    ∀ p, p ∈ flood_fill_reveal start.1 start.2 rows cols base flagged mines counts ↔
      p ∈ base ∨ FloodReach rows cols flagged mines base counts start p := by
  have hgrid : ∀ x ∈ [start], x ∈ gridCells rows cols := by
    intro x hx
    rcases List.mem_singleton.1 hx with rfl
    exact (mem_gridCells rows cols x).2 hb
  have hfuel : 9 * (gridCells rows cols \ base).card + ([start] : List (Int × Int)).length ≤
      9 * (rows.toNat * cols.toNat + 1) := by
    have h1 : (gridCells rows cols \ base).card ≤ (gridCells rows cols).card :=
      Finset.card_le_card (Finset.sdiff_subset)
    have h2 := gridCells_card rows cols
    simp only [List.length_singleton]
    omega
  intro p
  constructor
  · intro hp
    refine floodLoop_sound rows cols flagged mines counts base start _ base [start]
      subset_rfl ?_ p hp
    intro x hx
    rcases List.mem_singleton.1 hx with rfl
    exact Or.inr (Or.inr (Or.inr Relation.ReflTransGen.refl))
  · intro hp
    rcases hp with hp | hp
    · exact floodLoop_mono rows cols flagged mines counts _ base [start] hp
    · have key : ∀ x, FloodReach rows cols flagged mines base counts start x →
          x ∈ flood_fill_reveal start.1 start.2 rows cols base flagged mines counts ∧
            x ∉ base := by
        intro x hx
        induction hx with
        | refl =>
          refine ⟨?_, hr⟩
          have := floodLoop_covers rows cols flagged mines counts
            (9 * (rows.toNat * cols.toNat + 1)) base [start] hgrid hfuel start
            (List.mem_singleton.2 rfl)
          rcases this with h | h | h
          · exact h
          · exact absurd h hf
          · exact absurd h hm
        | tail hab hbc ihx =>
          rename_i b c
          obtain ⟨hbmem, hbbase⟩ := ihx
          obtain ⟨hb0, hcn, hcb, hcf, hcm, hcbase⟩ := hbc
          have := floodLoop_closed rows cols flagged mines counts
            (9 * (rows.toNat * cols.toNat + 1)) base [start] hgrid hfuel b hbmem hbbase
            hb0 c hcn hcb
          rcases this with h | h | h
          · exact ⟨h, hcbase⟩
          · exact absurd h hcf
          · exact absurd h hcm
      exact (key p hp).1

end FloodSound

/-! ## Initialization -/

theorem excludedCells_subset_grid (rows cols : Int) (safe : Int × Int)
    (hsafe : inBounds rows cols safe = true) :
    excludedCells rows cols safe ⊆ gridCells rows cols := by
  intro x hx
  rw [mem_gridCells]
  rcases Finset.mem_insert.1 hx with rfl | hx
  · exact hsafe
  · exact (List.mem_filter.1 (List.mem_toFinset.1 hx)).2

theorem gridCells_card_int (rows cols : Int) (hr : 0 < rows) (hc : 0 < cols) :
    (((gridCells rows cols).card : Int)) = rows * cols := by
  rw [gridCells_card]
  push_cast
  rw [Int.toNat_of_nonneg hr.le, Int.toNat_of_nonneg hc.le]

theorem availableCells_card (rows cols : Int) (safe : Int × Int)
    (hsafe : inBounds rows cols safe = true) :
    ((availableCells rows cols safe).card : Int)
      = rows * cols - ((excludedCells rows cols safe).card : Int) := by
  have hsub := excludedCells_subset_grid rows cols safe hsafe
  have hle := Finset.card_le_card hsub
  have hbnd := (inBounds_iff rows cols safe).1 hsafe
  have hgc := gridCells_card_int rows cols (by omega) (by omega)
  rw [availableCells, Finset.card_sdiff hsub]
  omega

/-- C4: with an in-bounds safe cell, whenever
`mine_count ≤ rows*cols - len(excluded)`, every valid sampling outcome
yields exactly `mine_count` distinct mines, none inside the excluded
zone, on a fresh initialized state; otherwise the call raises
`ValueError`. -/
theorem C4_initialize_spec (rows cols : Int) (mine_count : Nat) (safe : Int × Int)
    (hsafe : inBounds rows cols safe = true) :
    ((mine_count : Int) ≤ rows * cols - ((excludedCells rows cols safe).card : Int) →
      ∀ sample, ValidSample rows cols safe mine_count sample →
        ∃ s, initialize_board rows cols mine_count safe sample = .ok s ∧
          s.mines.card = mine_count ∧
          (∀ p ∈ excludedCells rows cols safe, p ∉ s.mines) ∧
          s.initialized = true ∧ s.revealed = ∅ ∧ s.flagged = ∅ ∧
          s.immune_flags = ∅ ∧ s.game_over = false ∧ s.won = false ∧
          s.rows = rows ∧ s.cols = cols) ∧
    ((mine_count : Int) > rows * cols - ((excludedCells rows cols safe).card : Int) →
      ∀ sample, ∃ e, initialize_board rows cols mine_count safe sample = .error e) := by
  have hav := availableCells_card rows cols safe hsafe
  constructor
  · intro hcount sample hvs
    obtain ⟨hnd, hlen, hmem⟩ := hvs
    have hok : ¬ (mine_count > (availableCells rows cols safe).card) := by
      rw [not_lt]
      have : (mine_count : Int) ≤ ((availableCells rows cols safe).card : Int) := by omega
      exact_mod_cast this
    refine ⟨_, by rw [initialize_board, if_neg hok], ?_, ?_, rfl, rfl, rfl, rfl, rfl, rfl,
      rfl, rfl⟩
    · rw [List.toFinset_card_of_nodup hnd, hlen]
    · intro p hp hpm
      have := hmem p (List.mem_toFinset.1 hpm)
      rw [availableCells, Finset.mem_sdiff] at this
      exact this.2 hp
  · intro hcount sample
    have hbad : mine_count > (availableCells rows cols safe).card := by
      have : ((availableCells rows cols safe).card : Int) < (mine_count : Int) := by omega
      exact_mod_cast this
    exact ⟨_, by rw [initialize_board, if_pos hbad]⟩

/-! ## Direct consequences of the reveal branches -/

/-- Revealing an eligible mine: game over, loss, full mine disclosure. -/
theorem reveal_cell_mine (board : BoardState) (row col : Int)
    (mc : Option Nat) (sample : List (Int × Int))
    (hinit : board.initialized = true) (hgo : board.game_over = false)
    (hb : inBounds board.rows board.cols (row, col) = true)
    (hm : (row, col) ∈ board.mines) (hf : (row, col) ∉ board.flagged)
    (hr : (row, col) ∉ board.revealed) :
    reveal_cell board row col mc sample = .ok { board with
      game_over := true, won := false,
      revealed := board.revealed ∪ board.mines } := by
  rw [reveal_cell]
  simp [hgo, hb, hinit, hf, hr, hm]
  rfl

/-- Exhaustive branch analysis of a successful `reveal_cell` call. -/
theorem reveal_cell_cases (board : BoardState) (row col : Int) (mc : Option Nat)
    (sample : List (Int × Int)) (t : BoardState)
    (h : reveal_cell board row col mc sample = .ok t) :
    (board.game_over = true ∧ t = board) ∨
    (board.game_over = false ∧ ¬ inBounds board.rows board.cols (row, col) = true ∧
      t = board) ∨
    (∃ b : BoardState,
      board.game_over = false ∧ inBounds board.rows board.cols (row, col) = true ∧
      ((board.initialized = true ∧ b = board) ∨
        (board.initialized = false ∧ ∃ k, mc = some k ∧
          initialize_board board.rows board.cols k (row, col) sample = .ok b)) ∧
      ((((row, col) ∈ b.flagged ∨ (row, col) ∈ b.revealed) ∧ t = b) ∨
        ((row, col) ∉ b.flagged ∧ (row, col) ∉ b.revealed ∧
          (((row, col) ∈ b.mines ∧ t = { b with
              game_over := true, won := false,
              revealed := b.revealed ∪ b.mines }) ∨
            ((row, col) ∉ b.mines ∧ t = check_win_condition { b with
              revealed := flood_fill_reveal row col b.rows b.cols
                b.revealed b.flagged b.mines b.adjacent_counts }))))) := by
  rw [reveal_cell] at h
  by_cases hgo : board.game_over = true
  · rw [if_pos hgo] at h
    exact Or.inl ⟨hgo, (Except.ok.inj h).symm⟩
  rw [if_neg hgo] at h
  have hgo' : board.game_over = false := by simpa using hgo
  by_cases hb : inBounds board.rows board.cols (row, col) = true
  · rw [if_neg (by simp [hb])] at h
    refine Or.inr (Or.inr ?_)
    have hmain : ∃ b : BoardState,
        ((board.initialized = true ∧ b = board) ∨
          (board.initialized = false ∧ ∃ k, mc = some k ∧
            initialize_board board.rows board.cols k (row, col) sample = .ok b)) ∧
        (if (row, col) ∈ b.flagged ∨ (row, col) ∈ b.revealed then Except.ok b
          else if (row, col) ∈ b.mines then
            Except.ok { b with
              game_over := true, won := false,
              revealed := b.revealed ∪ b.mines }
          else Except.ok (check_win_condition { b with
            revealed := flood_fill_reveal row col b.rows b.cols
              b.revealed b.flagged b.mines b.adjacent_counts }))
          = (Except.ok t : Except String BoardState) := by
      by_cases hinit : board.initialized = true
      · rw [if_pos hinit, pure_bind] at h
        exact ⟨board, Or.inl ⟨hinit, rfl⟩, h⟩
      · rw [if_neg hinit] at h
        have hinit' : board.initialized = false := by simpa using hinit
        cases mc with
        | none =>
          simp only [Bind.bind, Except.bind] at h
          exact Except.noConfusion h
        | some k =>
          cases hini : initialize_board board.rows board.cols k (row, col) sample with
          | error e =>
            simp only [Bind.bind, Except.bind, hini] at h
            exact Except.noConfusion h
          | ok b =>
            simp only [Bind.bind, Except.bind, hini] at h
            exact ⟨b, Or.inr ⟨hinit', k, rfl, hini⟩, h⟩
    obtain ⟨b, hbsrc, hrest⟩ := hmain
    refine ⟨b, hgo', hb, hbsrc, ?_⟩
    by_cases hfr : (row, col) ∈ b.flagged ∨ (row, col) ∈ b.revealed
    · rw [if_pos hfr] at hrest
      exact Or.inl ⟨hfr, (Except.ok.inj hrest).symm⟩
    · rw [if_neg hfr] at hrest
      push_neg at hfr
      by_cases hmine : (row, col) ∈ b.mines
      · rw [if_pos hmine] at hrest
        exact Or.inr ⟨hfr.1, hfr.2, Or.inl ⟨hmine,
          (Except.ok.inj hrest).symm⟩⟩
      · rw [if_neg hmine] at hrest
        exact Or.inr ⟨hfr.1, hfr.2, Or.inr ⟨hmine,
          (Except.ok.inj hrest).symm⟩⟩
  · rw [if_pos (by simp [Bool.not_eq_true] at hb ⊢; simp [hb])] at h
    exact Or.inr (Or.inl ⟨hgo', hb, (Except.ok.inj h).symm⟩)

/-- `_check_win_condition` touches only `game_over` and `won`. -/
theorem check_win_condition_fields (b : BoardState) :
    (check_win_condition b).rows = b.rows ∧ (check_win_condition b).cols = b.cols ∧
    (check_win_condition b).mines = b.mines ∧
    (check_win_condition b).revealed = b.revealed ∧
    (check_win_condition b).flagged = b.flagged ∧
    (check_win_condition b).immune_flags = b.immune_flags ∧
    (check_win_condition b).adjacent_counts = b.adjacent_counts ∧
    (check_win_condition b).initialized = b.initialized := by
  rw [check_win_condition]
  split_ifs <;> simp

theorem flood_fill_mono (sr sc rows cols : Int)
    (rev flagged mines : Finset (Int × Int)) (counts : (Int × Int) → Nat) :
    rev ⊆ flood_fill_reveal sr sc rows cols rev flagged mines counts :=
  floodLoop_mono rows cols flagged mines counts _ rev [(sr, sc)]

theorem flood_fill_adds (sr sc rows cols : Int)
    (rev flagged mines : Finset (Int × Int)) (counts : (Int × Int) → Nat)
    (hs : inBounds rows cols (sr, sc) = true) :
    ∀ q ∈ flood_fill_reveal sr sc rows cols rev flagged mines counts,
      q ∈ rev ∨ (inBounds rows cols q = true ∧ q ∉ flagged ∧ q ∉ mines) := by
  intro q hq
  refine floodLoop_adds rows cols flagged mines counts _ rev [(sr, sc)] ?_ q hq
  intro x hx
  rcases List.mem_singleton.1 hx with rfl
  exact hs

/-- On an initialized board, a reveal changes only `revealed`,
`game_over` and `won`, and only grows `revealed`. -/
theorem reveal_cell_frame (board t : BoardState) (row col : Int) (mc : Option Nat)
    (sample : List (Int × Int)) (hinit : board.initialized = true)
    (h : reveal_cell board row col mc sample = .ok t) :
    t.rows = board.rows ∧ t.cols = board.cols ∧ t.mines = board.mines ∧
    t.flagged = board.flagged ∧ t.immune_flags = board.immune_flags ∧
    t.adjacent_counts = board.adjacent_counts ∧ t.initialized = true ∧
    board.revealed ⊆ t.revealed := by
  rcases reveal_cell_cases board row col mc sample t h with
    ⟨_, rfl⟩ | ⟨_, _, rfl⟩ | ⟨b, _, _, hsrc, hbr⟩
  · exact ⟨rfl, rfl, rfl, rfl, rfl, rfl, hinit, subset_rfl⟩
  · exact ⟨rfl, rfl, rfl, rfl, rfl, rfl, hinit, subset_rfl⟩
  · rcases hsrc with ⟨_, rfl⟩ | ⟨hfalse, _⟩
    · rcases hbr with ⟨_, rfl⟩ | ⟨_, _, ⟨_, rfl⟩ | ⟨_, rfl⟩⟩
      · exact ⟨rfl, rfl, rfl, rfl, rfl, rfl, hinit, subset_rfl⟩
      · exact ⟨rfl, rfl, rfl, rfl, rfl, rfl, hinit, Finset.subset_union_left⟩
      · obtain ⟨h1, h2, h3, h4, h5, h6, h7, h8⟩ := check_win_condition_fields { b with
          revealed := flood_fill_reveal row col b.rows b.cols
            b.revealed b.flagged b.mines b.adjacent_counts }
        refine ⟨h1, h2, h3, h5, h6, h7, by rw [h8]; exact hinit, ?_⟩
        rw [h4]
        exact flood_fill_mono _ _ _ _ _ _ _ _
    · rw [hinit] at hfalse
      exact absurd hfalse (by simp)

/-! ## The step relation and the reachable-state invariant -/

theorem freshBoard_inv (rows cols : Int) (hr : 0 < rows) (hc : 0 < cols) :
    ReachInv (freshBoard rows cols) := by
  refine ⟨hr, hc, ?_, ?_, ?_, ?_, ?_, ?_, ?_, ?_, ?_⟩ <;>
    simp [freshBoard]

theorem initialize_board_inv (rows cols : Int) (k : Nat) (safe : Int × Int)
    (sample : List (Int × Int)) (s : BoardState)
    (hsafe : inBounds rows cols safe = true)
    (hvs : ValidSample rows cols safe k sample)
    (h : initialize_board rows cols k safe sample = .ok s) : ReachInv s := by
  rw [initialize_board] at h
  split_ifs at h with hc
  have hs := Except.ok.inj h
  subst hs
  have hbnd := (inBounds_iff rows cols safe).1 hsafe
  have hmsub : ∀ x ∈ sample.toFinset,
      x ∈ gridCells rows cols ∧ x ∉ excludedCells rows cols safe := by
    intro x hx
    have := hvs.2.2 x (List.mem_toFinset.1 hx)
    rw [availableCells, Finset.mem_sdiff] at this
    exact this
  have hsafe_not_mine : safe ∉ sample.toFinset := by
    intro hmem
    exact (hmsub safe hmem).2 (Finset.mem_insert_self _ _)
  constructor
  · show (0 : Int) < rows
    omega
  · show (0 : Int) < cols
    omega
  · intro x hx
    exact (hmsub x hx).1
  · intro x hx
    exact absurd hx (Finset.not_mem_empty x)
  · intro x hx
    exact absurd hx (Finset.not_mem_empty x)
  · intro x hx
    exact absurd hx (Finset.not_mem_empty x)
  · intro hbad
    exact absurd hbad (by simp)
  · intro _
    rfl
  · intro _
    constructor
    · show Disjoint (∅ : Finset (Int × Int)) _
      simp
    · show Disjoint (∅ : Finset (Int × Int)) _
      simp
  · intro hbad
    exact absurd hbad (by simp)
  · intro _
    show false = true ↔ (∅ : Finset (Int × Int)) = gridCells rows cols \ sample.toFinset
    constructor
    · intro hbad
      exact absurd hbad (by simp)
    · intro hbad
      exfalso
      have hmem : safe ∈ gridCells rows cols \ sample.toFinset :=
        Finset.mem_sdiff.2 ⟨(mem_gridCells rows cols safe).2 hsafe, hsafe_not_mine⟩
      rw [← hbad] at hmem
      exact Finset.not_mem_empty _ hmem

/-- Field content of a successful `initialize_board` call. -/
theorem initialize_board_fields (rows cols : Int) (k : Nat) (safe : Int × Int)
    (sample : List (Int × Int)) (s : BoardState)
    (h : initialize_board rows cols k safe sample = .ok s) :
    s.rows = rows ∧ s.cols = cols ∧ s.mines = sample.toFinset ∧
    s.revealed = ∅ ∧ s.flagged = ∅ ∧ s.immune_flags = ∅ ∧
    s.adjacent_counts = mkCounts rows cols sample.toFinset ∧
    s.game_over = false ∧ s.won = false ∧ s.initialized = true := by
  rw [initialize_board] at h
  split_ifs at h
  have hs := Except.ok.inj h
  subst hs
  exact ⟨rfl, rfl, rfl, rfl, rfl, rfl, rfl, rfl, rfl, rfl⟩

/-- Toggling a flag preserves the invariant and never touches immune
flags. -/
theorem toggle_flag_inv (s : BoardState) (row col : Int) (hInv : ReachInv s) :
    ReachInv (toggle_flag s row col) ∧
      (toggle_flag s row col).immune_flags = s.immune_flags := by
  rw [toggle_flag]
  by_cases h1 : s.game_over = true
  · rw [if_pos h1]
    exact ⟨hInv, rfl⟩
  rw [if_neg h1]
  by_cases h2 : inBounds s.rows s.cols (row, col) = true
  · rw [if_neg (not_not_intro h2)]
    by_cases h3 : (row, col) ∈ s.revealed
    · rw [if_pos h3]
      exact ⟨hInv, rfl⟩
    rw [if_neg h3]
    by_cases h4 : (row, col) ∈ s.immune_flags
    · rw [if_pos h4]
      exact ⟨hInv, rfl⟩
    rw [if_neg h4]
    by_cases h5 : (row, col) ∈ s.flagged
    · rw [if_pos h5]
      refine ⟨⟨hInv.rows_pos, hInv.cols_pos, hInv.mines_sub, hInv.revealed_sub,
        (Finset.erase_subset _ _).trans hInv.flagged_sub, ?_,
        fun hu => hInv.uninit hu, hInv.counts_eq, ?_,
        hInv.won_over, hInv.win_iff⟩, rfl⟩
      · intro x hx
        refine Finset.mem_erase.2 ⟨?_, hInv.immune_sub hx⟩
        rintro rfl
        exact h4 hx
      · intro hnl
        exact ⟨(hInv.not_lost hnl).1, Finset.disjoint_of_subset_left
          (Finset.erase_subset _ _) (hInv.not_lost hnl).2⟩
    · rw [if_neg h5]
      refine ⟨⟨hInv.rows_pos, hInv.cols_pos, hInv.mines_sub, hInv.revealed_sub, ?_,
        fun x hx => Finset.mem_insert_of_mem (hInv.immune_sub hx),
        fun hu => hInv.uninit hu, hInv.counts_eq, ?_,
        hInv.won_over, hInv.win_iff⟩, rfl⟩
      · intro x hx
        rcases Finset.mem_insert.1 hx with rfl | hx
        · exact (mem_gridCells _ _ _).2 h2
        · exact hInv.flagged_sub hx
      · intro hnl
        exact ⟨(hInv.not_lost hnl).1,
          Finset.disjoint_insert_left.2 ⟨h3, (hInv.not_lost hnl).2⟩⟩
  · rw [if_pos h2]
    exact ⟨hInv, rfl⟩

theorem won_false_of_not_over (s : BoardState) (hInv : ReachInv s)
    (hgo : s.game_over = false) : s.won = false := by
  cases hw : s.won
  · rfl
  · have := hInv.won_over hw
    rw [hgo] at this
    exact absurd this (by simp)

/-- The flood-fill branch of `reveal_cell` preserves the invariant. -/
theorem flood_branch_inv (b : BoardState) (row col : Int) (hInv : ReachInv b)
    (hbinit : b.initialized = true) (hbgo : b.game_over = false)
    (hb : inBounds b.rows b.cols (row, col) = true)
    (hf : (row, col) ∉ b.flagged) (hr : (row, col) ∉ b.revealed)
    (hm : (row, col) ∉ b.mines) :
    ReachInv (check_win_condition { b with
      revealed := flood_fill_reveal row col b.rows b.cols
        b.revealed b.flagged b.mines b.adjacent_counts }) := by
  set F := flood_fill_reveal row col b.rows b.cols
    b.revealed b.flagged b.mines b.adjacent_counts with hF
  have hnl := hInv.not_lost (by rw [hbgo]; simp)
  have hFadds := flood_fill_adds row col b.rows b.cols
    b.revealed b.flagged b.mines b.adjacent_counts hb
  have hFsub : F ⊆ gridCells b.rows b.cols := by
    intro q hq
    rcases hFadds q hq with h | h
    · exact hInv.revealed_sub h
    · exact (mem_gridCells _ _ _).2 h.1
  have hdisjm : Disjoint F b.mines := by
    rw [Finset.disjoint_left]
    intro q hq hqm
    rcases hFadds q hq with h | h
    · exact Finset.disjoint_left.1 hnl.1 h hqm
    · exact h.2.2 hqm
  have hdisjf : Disjoint b.flagged F := by
    rw [Finset.disjoint_right]
    intro q hq hqf
    rcases hFadds q hq with h | h
    · exact Finset.disjoint_left.1 hnl.2 hqf h
    · exact h.2.1 hqf
  have hwon := won_false_of_not_over b hInv hbgo
  have hcard_sdiff : ((gridCells b.rows b.cols \ b.mines).card : Int)
      = b.rows * b.cols - (b.mines.card : Int) := by
    rw [Finset.card_sdiff hInv.mines_sub,
      Nat.cast_sub (Finset.card_le_card hInv.mines_sub),
      gridCells_card_int b.rows b.cols hInv.rows_pos hInv.cols_pos]
  rw [check_win_condition]
  split_ifs with hwin
  · -- the flood fill completed the board: the win flags are set
    have hFeq : F = gridCells b.rows b.cols \ b.mines := by
      refine Finset.eq_of_subset_of_card_le ?_ ?_
      · intro q hq
        exact Finset.mem_sdiff.2 ⟨hFsub hq, Finset.disjoint_left.1 hdisjm hq⟩
      · have hwin' : (F.card : Int) = b.rows * b.cols - (b.mines.card : Int) := hwin
        have : ((gridCells b.rows b.cols \ b.mines).card : Int) = (F.card : Int) := by
          omega
        exact_mod_cast le_of_eq this
    refine ⟨hInv.rows_pos, hInv.cols_pos, hInv.mines_sub, hFsub, hInv.flagged_sub,
      hInv.immune_sub, ?_, hInv.counts_eq, ?_, fun _ => rfl, ?_⟩
    · intro hu
      rw [hbinit] at hu
      exact absurd hu (by simp)
    · intro _
      exact ⟨hdisjm, hdisjf⟩
    · intro _
      exact ⟨fun _ => hFeq, fun _ => rfl⟩
  · -- no win: the board stays active
    refine ⟨hInv.rows_pos, hInv.cols_pos, hInv.mines_sub, hFsub, hInv.flagged_sub,
      hInv.immune_sub, ?_, hInv.counts_eq, ?_, ?_, ?_⟩
    · intro hu
      rw [hbinit] at hu
      exact absurd hu (by simp)
    · intro _
      exact ⟨hdisjm, hdisjf⟩
    · intro hw
      exact absurd (hInv.won_over hw) (by rw [hbgo]; simp)
    · intro _
      constructor
      · intro hw
        have hw' : b.won = true := hw
        rw [hwon] at hw'
        exact absurd hw' (by simp)
      · intro hEq
        exfalso
        have hEq' : F = gridCells b.rows b.cols \ b.mines := hEq
        have hcards : F.card = (gridCells b.rows b.cols \ b.mines).card := by rw [hEq']
        refine hwin ?_
        show (F.card : Int) = b.rows * b.cols - (b.mines.card : Int)
        omega

/-- A successful reveal preserves the invariant and the immune flags. -/
theorem reveal_cell_inv (s t : BoardState) (row col : Int) (mc : Option Nat)
    (sample : List (Int × Int)) (hInv : ReachInv s)
    (hok : SampleOK s row col mc sample)
    (h : reveal_cell s row col mc sample = .ok t) :
    ReachInv t ∧ s.immune_flags ⊆ t.immune_flags := by
  rcases reveal_cell_cases s row col mc sample t h with
    ⟨_, rfl⟩ | ⟨_, _, rfl⟩ | ⟨b, hgo, hbnds, hsrc, hbr⟩
  · exact ⟨hInv, subset_rfl⟩
  · exact ⟨hInv, subset_rfl⟩
  · have hbfacts : ReachInv b ∧ s.immune_flags ⊆ b.immune_flags ∧
        b.initialized = true ∧ b.game_over = false ∧ b.rows = s.rows ∧ b.cols = s.cols := by
      rcases hsrc with ⟨hi, rfl⟩ | ⟨hi, k, hmc, hini⟩
      · exact ⟨hInv, subset_rfl, hi, hgo, rfl, rfl⟩
      · rcases hok with hok' | ⟨k', hmc', hvs⟩
        · rw [hok'] at hi
          exact absurd hi (by simp)
        · rw [hmc] at hmc'
          have hkk := Option.some.inj hmc'
          rw [← hkk] at hvs
          obtain ⟨f1, f2, f3, f4, f5, f6, f7, f8, f9, f10⟩ :=
            initialize_board_fields s.rows s.cols k (row, col) sample b hini
          have hImm : s.immune_flags = ∅ := (hInv.uninit hi).2.2.1
          refine ⟨initialize_board_inv s.rows s.cols k (row, col) sample b hbnds hvs hini,
            ?_, f10, f8, f1, f2⟩
          rw [hImm]
          exact Finset.empty_subset _
    obtain ⟨hbInv, hbimm, hbinit, hbgo, hbrows, hbcols⟩ := hbfacts
    rcases hbr with ⟨_, rfl⟩ | ⟨hf, hr, ⟨hmine, rfl⟩ | ⟨hmine, rfl⟩⟩
    · exact ⟨hbInv, hbimm⟩
    · -- mine hit: loss with full mine disclosure
      refine ⟨⟨hbInv.rows_pos, hbInv.cols_pos, hbInv.mines_sub,
        Finset.union_subset hbInv.revealed_sub hbInv.mines_sub, hbInv.flagged_sub,
        hbInv.immune_sub, ?_, hbInv.counts_eq, ?_, ?_, ?_⟩, hbimm⟩
      · intro hu
        have hu' : b.initialized = false := hu
        rw [hbinit] at hu'
        exact absurd hu' (by simp)
      · intro hnl
        exact absurd ⟨rfl, rfl⟩ hnl
      · intro hbad
        exact absurd hbad (by simp)
      · intro _
        constructor
        · intro hbad
          exact absurd hbad (by simp)
        · intro hEq
          exfalso
          have hEq' : b.revealed ∪ b.mines = gridCells b.rows b.cols \ b.mines := hEq
          have hmem : (row, col) ∈ b.revealed ∪ b.mines := Finset.mem_union_right _ hmine
          rw [hEq'] at hmem
          exact (Finset.mem_sdiff.1 hmem).2 hmine
    · -- safe cell: flood fill and win re-check
      have hbbnds : inBounds b.rows b.cols (row, col) = true := by
        rw [hbrows, hbcols]
        exact hbnds
      obtain ⟨c1, c2, c3, c4, c5, c6, c7, c8⟩ := check_win_condition_fields { b with
        revealed := flood_fill_reveal row col b.rows b.cols
          b.revealed b.flagged b.mines b.adjacent_counts }
      refine ⟨flood_branch_inv b row col hbInv hbinit hbgo hbbnds hf hr hmine, ?_⟩
      rw [c6]
      exact hbimm

/-- A successful clue preserves the invariant and only grows the immune
flags. -/
theorem apply_clue_inv (s t : BoardState) (row col : Int) (mc : Option Nat)
    (sample : List (Int × Int)) (hInv : ReachInv s)
    (hok : SampleOK s row col mc sample)
    (h : apply_clue s row col mc sample = .ok t) :
    ReachInv t ∧ s.immune_flags ⊆ t.immune_flags := by
  rw [apply_clue] at h
  by_cases h1 : s.game_over = true
  · rw [if_pos h1] at h
    cases Except.ok.inj h
    exact ⟨hInv, subset_rfl⟩
  rw [if_neg h1] at h
  by_cases h2 : inBounds s.rows s.cols (row, col) = true
  swap
  · rw [if_pos h2] at h
    cases Except.ok.inj h
    exact ⟨hInv, subset_rfl⟩
  rw [if_neg (not_not_intro h2)] at h
  by_cases h3 : s.initialized = true
  swap
  · rw [if_pos h3] at h
    exact reveal_cell_inv s t row col mc sample hInv hok h
  rw [if_neg (not_not_intro h3)] at h
  by_cases h4 : (row, col) ∈ s.revealed ∨ (row, col) ∈ s.flagged
  · rw [if_pos h4] at h
    cases Except.ok.inj h
    exact ⟨hInv, subset_rfl⟩
  rw [if_neg h4] at h
  push_neg at h4
  by_cases h5 : (row, col) ∈ s.mines
  · rw [if_pos h5] at h
    cases Except.ok.inj h
    refine ⟨⟨hInv.rows_pos, hInv.cols_pos, hInv.mines_sub, hInv.revealed_sub, ?_,
      Finset.insert_subset_insert _ hInv.immune_sub, ?_, hInv.counts_eq, ?_,
      hInv.won_over, hInv.win_iff⟩, Finset.subset_insert _ _⟩
    · intro x hx
      rcases Finset.mem_insert.1 hx with rfl | hx
      · exact (mem_gridCells _ _ _).2 h2
      · exact hInv.flagged_sub hx
    · intro hu
      have hu' : s.initialized = false := hu
      rw [h3] at hu'
      exact absurd hu' (by simp)
    · intro hnl
      exact ⟨(hInv.not_lost hnl).1,
        Finset.disjoint_insert_left.2 ⟨h4.1, (hInv.not_lost hnl).2⟩⟩
  · rw [if_neg h5] at h
    exact reveal_cell_inv s t row col none sample hInv (Or.inl h3) h

/-- The chord loop preserves the invariant (all its reveals run on
initialized boards) and the immune flags. -/
theorem chordLoop_inv (flagged revealed : Finset (Int × Int))
    (l : List (Int × Int)) (b t : BoardState)
    (hInv : ReachInv b) (hbinit : b.initialized = true)
    (h : chordLoop flagged revealed l b = .ok t) :
    ReachInv t ∧ b.immune_flags ⊆ t.immune_flags := by
  induction l generalizing b with
  | nil =>
    rw [chordLoop] at h
    cases Except.ok.inj h
    exact ⟨hInv, subset_rfl⟩
  | cons q rest ih =>
    rw [chordLoop] at h
    split_ifs at h with hq
    · cases hrev : reveal_cell b q.1 q.2 none [] with
      | error e =>
        rw [hrev] at h
        have h' : (Except.error e : Except String BoardState) = Except.ok t := h
        exact Except.noConfusion h'
      | ok b' =>
        rw [hrev] at h
        have h' : (if b'.game_over = true then Except.ok b'
            else chordLoop flagged revealed rest b') = Except.ok t := h
        have hrinv := reveal_cell_inv b b' q.1 q.2 none [] hInv (Or.inl hbinit) hrev
        have hbinit' : b'.initialized = true :=
          (reveal_cell_frame b b' q.1 q.2 none [] hbinit hrev).2.2.2.2.2.2.1
        split_ifs at h' with hgo
        · cases Except.ok.inj h'
          exact hrinv
        · obtain ⟨hI, hImm⟩ := ih b' hrinv.1 hbinit' h'
          exact ⟨hI, hrinv.2.trans hImm⟩
    · exact ih b hInv hbinit h

/-- A successful chord preserves the invariant and the immune flags. -/
theorem chord_reveal_inv (s t : BoardState) (row col : Int) (hInv : ReachInv s)
    (h : chord_reveal s row col = .ok t) :
    ReachInv t ∧ s.immune_flags ⊆ t.immune_flags := by
  rw [chord_reveal] at h
  by_cases h1 : s.game_over = true
  · rw [if_pos h1] at h
    cases Except.ok.inj h
    exact ⟨hInv, subset_rfl⟩
  rw [if_neg h1] at h
  by_cases h2 : inBounds s.rows s.cols (row, col) = true
  swap
  · rw [if_pos h2] at h
    cases Except.ok.inj h
    exact ⟨hInv, subset_rfl⟩
  rw [if_neg (not_not_intro h2)] at h
  by_cases h3 : (row, col) ∈ s.revealed
  swap
  · rw [if_pos h3] at h
    cases Except.ok.inj h
    exact ⟨hInv, subset_rfl⟩
  rw [if_neg (not_not_intro h3)] at h
  have hinit : s.initialized = true := by
    cases hi : s.initialized
    · have hre := (hInv.uninit hi).2.1
      rw [hre] at h3
      exact absurd h3 (Finset.not_mem_empty _)
    · rfl
  simp only at h
  by_cases h4 : s.adjacent_counts (row, col) = 0
  · rw [if_pos h4] at h
    cases Except.ok.inj h
    exact ⟨hInv, subset_rfl⟩
  rw [if_neg h4] at h
  by_cases h5 : (((neighborsOf (row, col)).filter
      (inBounds s.rows s.cols)).filter fun q => decide (q ∈ s.flagged)).length ≠
      s.adjacent_counts (row, col)
  · rw [if_pos h5] at h
    cases Except.ok.inj h
    exact ⟨hInv, subset_rfl⟩
  · rw [if_neg h5] at h
    exact chordLoop_inv s.flagged s.revealed _ s t hInv hinit h

/-- Any engine step preserves the invariant and the immune flags. -/
theorem step_inv (s t : BoardState) (hInv : ReachInv s) (h : Step s t) :
    ReachInv t ∧ s.immune_flags ⊆ t.immune_flags := by
  cases h with
  | reveal row col mc sample hok hrev =>
    exact reveal_cell_inv s t row col mc sample hInv hok hrev
  | toggle row col =>
    obtain ⟨hI, hEq⟩ := toggle_flag_inv s row col hInv
    exact ⟨hI, by rw [hEq]⟩
  | clue row col mc sample hok hclue =>
    exact apply_clue_inv s t row col mc sample hInv hok hclue
  | chord row col hchord =>
    exact chord_reveal_inv s t row col hInv hchord

/-- Along any sequence of steps, the invariant holds and immune flags
only grow. -/
theorem steps_immune_mono (s t : BoardState) (hInv : ReachInv s)
    (h : Relation.ReflTransGen Step s t) :
    ReachInv t ∧ s.immune_flags ⊆ t.immune_flags := by
  induction h with
  | refl => exact ⟨hInv, subset_rfl⟩
  | tail hab hbc ih =>
    obtain ⟨hI, hsub⟩ := ih
    obtain ⟨hI', hsub'⟩ := step_inv _ _ hI hbc
    exact ⟨hI', hsub.trans hsub'⟩

/-- Every reachable state satisfies the invariant. -/
theorem reachable_inv (s : BoardState) (h : Reachable s) : ReachInv s := by
  obtain ⟨s₀, hinit, hsteps⟩ := h
  have h0 : ReachInv s₀ := by
    rcases hinit with ⟨rows, cols, hr, hc, rfl⟩ |
      ⟨rows, cols, k, safe, sample, hsafe, hvs, hini⟩
    · exact freshBoard_inv rows cols hr hc
    · exact initialize_board_inv rows cols k safe sample s₀ hsafe hvs hini
  exact (steps_immune_mono s₀ s h0 hsteps).1

theorem reachable_step (s t : BoardState) (hs : Reachable s) (h : Step s t) :
    Reachable t := by
  obtain ⟨s₀, hinit, hsteps⟩ := hs
  exact ⟨s₀, hinit, hsteps.tail h⟩

/-! ## Render analysis -/

/-- Cardinality of the non-mine cells, in Python's integer arithmetic. -/
theorem card_grid_sdiff_mines (s : BoardState) (hInv : ReachInv s) :
    ((gridCells s.rows s.cols \ s.mines).card : Int)
      = s.rows * s.cols - (s.mines.card : Int) := by
  rw [Finset.card_sdiff hInv.mines_sub,
    Nat.cast_sub (Finset.card_le_card hInv.mines_sub),
    gridCells_card_int s.rows s.cols hInv.rows_pos hInv.cols_pos]

/-- With mines hidden and no revealed mine, no cell renders as a mine. -/
theorem cellState_no_mine (b : BoardState) (r c : Int)
    (hdisj : Disjoint b.revealed b.mines) :
    cellState b false r c ≠ CellState.mineCell ∧
      cellState b false r c ≠ CellState.mineHit := by
  rw [cellState]
  split_ifs with h1 h2 h3 h4 h5
  · exact (Finset.disjoint_left.1 hdisj h1 h2).elim
  · exact ⟨by simp, by simp⟩
  · exact ⟨by simp, by simp⟩
  · exact ⟨by simp, by simp⟩
  · simp at h5
  · exact ⟨by simp, by simp⟩

/-- A cell renders as an un-revealed `mine` only if it is a mine that is
neither revealed nor flagged (nor immune-flagged). -/
theorem cellState_mineCell (b : BoardState) (rm : Bool) (r c : Int)
    (h : cellState b rm r c = CellState.mineCell) :
    (r, c) ∈ b.mines ∧ (r, c) ∉ b.revealed ∧ (r, c) ∉ b.flagged := by
  rw [cellState] at h
  split_ifs at h with h1 h2 h3 h4 h5
  any_goals simp at h
  simp only [Bool.and_eq_true, decide_eq_true_eq] at h5
  exact ⟨h5.2, h1, h4⟩

/-- A revealed mine renders as `mine_hit`. -/
theorem cellState_mineHit (b : BoardState) (rm : Bool) (r c : Int)
    (hr : (r, c) ∈ b.revealed) (hm : (r, c) ∈ b.mines) :
    cellState b rm r c = CellState.mineHit := by
  rw [cellState, if_pos hr, if_pos hm]

/-- Indexing into the rendered cells grid. -/
theorem render_cells_get (b : BoardState) (show_all : Bool) (r c : Int)
    (hr0 : 0 ≤ r) (hr1 : r < b.rows) (hc0 : 0 ≤ c) (hc1 : c < b.cols) :
    ((render_for_frontend b show_all).cells[r.toNat]?.bind
      fun rowL => rowL[c.toNat]?)
      = some (cellState b (show_all || b.game_over) r c) := by
  rw [render_for_frontend]
  have hrlt : r.toNat < b.rows.toNat := by omega
  have hclt : c.toNat < b.cols.toNat := by omega
  simp only [List.getElem?_map, List.getElem?_range, hrlt, hclt, if_pos,
    Option.map_some', Option.some_bind']
  rw [show Int.ofNat r.toNat = r from by
      rw [Int.ofNat_eq_natCast, Int.toNat_of_nonneg hr0],
    show Int.ofNat c.toNat = c from by
      rw [Int.ofNat_eq_natCast, Int.toNat_of_nonneg hc0]]

/-! ## Claim theorems: invariants over reachable states -/

/-- C1 (amended): for every reachable state, `won = true` iff the board
is initialized and `revealed` equals the set of all non-mine cells; the
cardinality form `len(revealed) = rows*cols - len(mines)` is equivalent
to winning on initialized states that were not reached through a loss
(on lost boards full mine disclosure can make the cardinality equation
hold with `won = false`). -/
theorem C1_win_iff_full_coverage (s : BoardState) (hreach : Reachable s) :
    (s.won = true ↔ s.initialized = true ∧
      s.revealed = gridCells s.rows s.cols \ s.mines) ∧
    (¬(s.game_over = true ∧ s.won = false) → s.initialized = true →
      (s.won = true ↔
        (s.revealed.card : Int) = s.rows * s.cols - (s.mines.card : Int))) := by
  have hInv := reachable_inv s hreach
  constructor
  · constructor
    · intro hw
      have hinit : s.initialized = true := by
        cases hi : s.initialized
        · have hwf := (hInv.uninit hi).2.2.2.2
          rw [hwf] at hw
          exact absurd hw (by simp)
        · rfl
      exact ⟨hinit, (hInv.win_iff hinit).1 hw⟩
    · rintro ⟨hinit, hEq⟩
      exact (hInv.win_iff hinit).2 hEq
  · intro hnl hinit
    have hdisj := (hInv.not_lost hnl).1
    have hsd := card_grid_sdiff_mines s hInv
    constructor
    · intro hw
      rw [(hInv.win_iff hinit).1 hw]
      exact hsd
    · intro hc
      refine (hInv.win_iff hinit).2 ?_
      refine Finset.eq_of_subset_of_card_le ?_ ?_
      · intro q hq
        exact Finset.mem_sdiff.2 ⟨hInv.revealed_sub hq, Finset.disjoint_left.1 hdisj hq⟩
      · have h1 : ((gridCells s.rows s.cols \ s.mines).card : Int)
            = (s.revealed.card : Int) := by omega
        exact_mod_cast le_of_eq h1

/-- C2 (amended): in every reachable state that was not reached through
a losing reveal (i.e. unless `game_over` holds without `won`), no
coordinate is both flagged and revealed.  A losing reveal moves all
mines into `revealed`, so a flagged mine then lies in both sets. -/
theorem C2_flagged_revealed_disjoint (s : BoardState) (hreach : Reachable s)
    (hnl : ¬(s.game_over = true ∧ s.won = false)) :
    s.flagged ∩ s.revealed = ∅ := by
  have hInv := reachable_inv s hreach
  have hd := (hInv.not_lost hnl).2
  rwa [← Finset.disjoint_iff_inter_eq_empty]

/-- C8: immune-flag permanence.  Once a coordinate of a reachable state
is in `immune_flags`, it stays in `flagged` and in `immune_flags` after
every further sequence of engine operations. -/
theorem C8_immune_flag_permanence (s t : BoardState) (r c : Int)
    (hreach : Reachable s) (hmem : (r, c) ∈ s.immune_flags)
    (hsteps : Relation.ReflTransGen Step s t) :
    (r, c) ∈ t.flagged ∧ (r, c) ∈ t.immune_flags := by
  have hInv := reachable_inv s hreach
  obtain ⟨hI, hsub⟩ := steps_immune_mono s t hInv hsteps
  exact ⟨hI.immune_sub (hsub hmem), hsub hmem⟩

/-- C9: anti-cheat projection.  For every reachable state with
`game_over = false`, the client view rendered without the reveal-all
override contains no `mine` and no `mine_hit` cell. -/
theorem C9_anti_cheat_projection (s : BoardState) (hreach : Reachable s)
    (hgo : s.game_over = false) :
    ∀ rowCells ∈ (render_for_frontend s false).cells, ∀ cell ∈ rowCells,
      cell ≠ CellState.mineCell ∧ cell ≠ CellState.mineHit := by
  have hInv := reachable_inv s hreach
  have hdisj := (hInv.not_lost (by rw [hgo]; simp)).1
  intro rowCells hrow cell hcell
  rw [render_for_frontend] at hrow
  simp only [List.mem_map, List.mem_range] at hrow
  obtain ⟨r, _, rfl⟩ := hrow
  simp only [List.mem_map, List.mem_range] at hcell
  obtain ⟨c, _, rfl⟩ := hcell
  rw [show (false || s.game_over) = false by rw [hgo]; rfl]
  exact cellState_no_mine s (Int.ofNat r) (Int.ofNat c) hdisj

/-- C3: revealing an eligible mine on an initialized, non-terminal
board loses the game and discloses every mine in `revealed`. -/
theorem C3_reveal_mine_full_disclosure (board : BoardState) (row col : Int)
    (mc : Option Nat) (sample : List (Int × Int))
    (hinit : board.initialized = true) (hgo : board.game_over = false)
    (hb : inBounds board.rows board.cols (row, col) = true)
    (hm : (row, col) ∈ board.mines) (hf : (row, col) ∉ board.flagged)
    (hr : (row, col) ∉ board.revealed) :
    ∃ t, reveal_cell board row col mc sample = .ok t ∧
      t.game_over = true ∧ t.won = false ∧
      t.revealed = board.revealed ∪ board.mines :=
  ⟨_, reveal_cell_mine board row col mc sample hinit hgo hb hm hf hr, rfl, rfl, rfl⟩

/-- A reveal whose target is not a mine (on an initialized board), or
that initializes the board with a valid sample, never produces a lost
state. -/
theorem reveal_no_loss (s t : BoardState) (row col : Int) (mc : Option Nat)
    (sample : List (Int × Int)) (hgo : s.game_over = false)
    (hok : SampleOK s row col mc sample)
    (hsafe : s.initialized = true → (row, col) ∉ s.mines)
    (h : reveal_cell s row col mc sample = .ok t) :
    ¬(t.game_over = true ∧ t.won = false) := by
  rintro ⟨hT, hW⟩
  rcases reveal_cell_cases s row col mc sample t h with
    ⟨hbad, rfl⟩ | ⟨_, _, rfl⟩ | ⟨b, hgo', hb, hsrc, hbr⟩
  · rw [hgo] at hbad
    exact absurd hbad (by simp)
  · rw [hgo] at hT
    exact absurd hT (by simp)
  · have hbfacts : (row, col) ∉ b.mines ∧ b.game_over = false := by
      rcases hsrc with ⟨hi, rfl⟩ | ⟨hi, k, hmc, hini⟩
      · exact ⟨hsafe hi, hgo⟩
      · obtain ⟨f1, f2, f3, f4, f5, f6, f7, f8, f9, f10⟩ :=
          initialize_board_fields s.rows s.cols k (row, col) sample b hini
        rcases hok with hok' | ⟨k', hmc', hvs⟩
        · rw [hok'] at hi
          exact absurd hi (by simp)
        · rw [hmc] at hmc'
          have hkk := Option.some.inj hmc'
          rw [← hkk] at hvs
          refine ⟨?_, f8⟩
          rw [f3]
          intro hmem
          have := hvs.2.2 _ (List.mem_toFinset.1 hmem)
          rw [availableCells, Finset.mem_sdiff] at this
          exact this.2 (Finset.mem_insert_self _ _)
    rcases hbr with ⟨_, rfl⟩ | ⟨hf, hr, ⟨hmine, rfl⟩ | ⟨hmine, rfl⟩⟩
    · rw [hbfacts.2] at hT
      exact absurd hT (by simp)
    · exact hbfacts.1 hmine
    · rw [check_win_condition] at hT hW
      split_ifs at hT hW
      all_goals
        first
          | exact absurd (show (true : Bool) = false from hW) (by simp)
          | exact absurd (show b.game_over = true from hT)
              (by rw [hbfacts.2]; simp)

/-- C6: the Clue power-up never causes a loss.  A successful
`apply_clue` from a state with `game_over = false` never returns a lost
state, and applying it to an unflagged, unrevealed, in-bounds mine on an
initialized board just adds the coordinate to `flagged` and
`immune_flags`, leaving the game running. -/
theorem C6_clue_never_loses (s t : BoardState) (row col : Int) (mc : Option Nat)
    (sample : List (Int × Int)) (hgo : s.game_over = false)
    (hok : SampleOK s row col mc sample)
    (h : apply_clue s row col mc sample = .ok t) :
    ¬(t.game_over = true ∧ t.won = false) ∧
    (s.initialized = true → inBounds s.rows s.cols (row, col) = true →
      (row, col) ∈ s.mines → (row, col) ∉ s.flagged → (row, col) ∉ s.revealed →
      t = { s with
          flagged := insert (row, col) s.flagged,
          immune_flags := insert (row, col) s.immune_flags } ∧
        t.game_over = false) := by
  rw [apply_clue, if_neg (by rw [hgo]; simp)] at h
  by_cases h2 : inBounds s.rows s.cols (row, col) = true
  swap
  · rw [if_pos h2] at h
    cases Except.ok.inj h
    refine ⟨fun hc => by rw [hgo] at hc; simp at hc, fun _ hb => absurd hb h2⟩
  rw [if_neg (not_not_intro h2)] at h
  by_cases h3 : s.initialized = true
  swap
  · rw [if_pos h3] at h
    refine ⟨reveal_no_loss s t row col mc sample hgo hok
      (fun hi => absurd hi h3) h, fun hi => absurd hi h3⟩
  rw [if_neg (not_not_intro h3)] at h
  by_cases h4 : (row, col) ∈ s.revealed ∨ (row, col) ∈ s.flagged
  · rw [if_pos h4] at h
    cases Except.ok.inj h
    refine ⟨fun hc => by rw [hgo] at hc; simp at hc, ?_⟩
    intro _ _ _ hnf hnr
    rcases h4 with h4 | h4
    · exact absurd h4 hnr
    · exact absurd h4 hnf
  rw [if_neg h4] at h
  push_neg at h4
  by_cases h5 : (row, col) ∈ s.mines
  · rw [if_pos h5] at h
    cases Except.ok.inj h
    exact ⟨fun hc => by
        have hc' : s.game_over = true := hc.1
        rw [hgo] at hc'
        simp at hc',
      fun _ _ _ _ _ => ⟨rfl, hgo⟩⟩
  · rw [if_neg h5] at h
    exact ⟨reveal_no_loss s t row col none sample hgo (Or.inl h3)
      (fun _ => h5) h, fun _ _ hm => absurd hm h5⟩

/-- A losing reveal leaves every mine revealed. -/
theorem losing_reveal_mines_revealed (s t : BoardState) (row col : Int)
    (mc : Option Nat) (sample : List (Int × Int)) (hgo : s.game_over = false)
    (h : reveal_cell s row col mc sample = .ok t)
    (hT : t.game_over = true) (hW : t.won = false) :
    t.mines ⊆ t.revealed := by
  rcases reveal_cell_cases s row col mc sample t h with
    ⟨hbad, rfl⟩ | ⟨_, _, rfl⟩ | ⟨b, hgo', hb, hsrc, hbr⟩
  · rw [hgo] at hbad
    exact absurd hbad (by simp)
  · rw [hgo] at hT
    exact absurd hT (by simp)
  · have hbgo : b.game_over = false := by
      rcases hsrc with ⟨_, rfl⟩ | ⟨_, k, _, hini⟩
      · exact hgo
      · exact (initialize_board_fields s.rows s.cols k (row, col) sample b hini).2.2.2.2.2.2.2.1
    rcases hbr with ⟨_, rfl⟩ | ⟨hf, hr, ⟨hmine, rfl⟩ | ⟨hmine, rfl⟩⟩
    · rw [hbgo] at hT
      exact absurd hT (by simp)
    · exact Finset.subset_union_right
    · rw [check_win_condition] at hT hW
      split_ifs at hT hW
      all_goals
        first
          | exact absurd (show (true : Bool) = false from hW) (by simp)
          | exact absurd (show b.game_over = true from hT) (by rw [hbgo]; simp)

/-- C10: after a losing reveal from a reachable active state, the
client view marks every mine coordinate `mine_hit` (all mines were
placed into `revealed` on loss); the distinct `mine` cell state can only
arise for a mine that is neither revealed nor flagged. -/
theorem C10_loss_render_mine_hit (s t : BoardState) (row col : Int)
    (mc : Option Nat) (sample : List (Int × Int))
    (hreach : Reachable s) (hgo : s.game_over = false)
    (hok : SampleOK s row col mc sample)
    (h : reveal_cell s row col mc sample = .ok t)
    (hT : t.game_over = true) (hW : t.won = false) :
    (∀ p ∈ t.mines,
      ((render_for_frontend t false).cells[p.1.toNat]?.bind
        fun rowL => rowL[p.2.toNat]?) = some CellState.mineHit) ∧
    (∀ (b : BoardState) (rm : Bool) (r c : Int),
      cellState b rm r c = CellState.mineCell →
      (r, c) ∈ b.mines ∧ (r, c) ∉ b.revealed ∧ (r, c) ∉ b.flagged) := by
  have hreacht : Reachable t :=
    reachable_step s t hreach (Step.reveal row col mc sample hok h)
  have hInvT := reachable_inv t hreacht
  have hsub := losing_reveal_mines_revealed s t row col mc sample hgo h hT hW
  constructor
  · intro p hp
    have hpg := hInvT.mines_sub hp
    rw [mem_gridCells, inBounds_iff] at hpg
    rw [render_cells_get t false p.1 p.2 hpg.1 hpg.2.1 hpg.2.2.1 hpg.2.2.2]
    exact congrArg some (cellState_mineHit t (false || t.game_over) p.1 p.2
      (hsub hp) hp)
  · intro b rm r c hcell
    exact cellState_mineCell b rm r c hcell

/-! ## Chord reveal refinement (C7) -/

theorem chordLoop_eq_revealSeq (flagged revealed : Finset (Int × Int)) :
    ∀ (l : List (Int × Int)) (b : BoardState),
      chordLoop flagged revealed l b =
        revealSeq (l.filter fun q => decide (q ∉ flagged ∧ q ∉ revealed)) b := by
  intro l
  induction l with
  | nil => intro b; rfl
  | cons q rest ih =>
    intro b
    rw [chordLoop]
    by_cases hq : q ∉ flagged ∧ q ∉ revealed
    · rw [if_pos hq, List.filter_cons_of_pos (by simpa using hq), revealSeq]
      cases hrev : reveal_cell b q.1 q.2 none [] with
      | error e => rfl
      | ok b' =>
        by_cases hgo : b'.game_over = true
        · simp [hgo]
        · simp only [hgo, if_false, Bool.false_eq_true, if_neg]
          exact ih b'
    · rw [if_neg hq, List.filter_cons_of_neg (by simpa using hq)]
      exact ih b

/-- C7: `chord_reveal` coincides with its specification on every board
state and every coordinate: the five no-op conditions return the state
unchanged, and otherwise the unflagged, unrevealed neighbours are
revealed one at a time with short-circuiting on game over. -/
theorem C7_chord_reveal_spec (s : BoardState) (row col : Int) :
    chord_reveal s row col = chordRevealSpec s row col := by
  rw [chord_reveal, chordRevealSpec]
  by_cases h1 : s.game_over = true
  · rw [if_pos h1, if_pos (Or.inl h1)]
  rw [if_neg h1]
  by_cases h2 : inBounds s.rows s.cols (row, col) = true
  swap
  · rw [if_pos h2, if_pos (Or.inr (Or.inl h2))]
  rw [if_neg (not_not_intro h2)]
  by_cases h3 : (row, col) ∉ s.revealed
  · rw [if_pos h3, if_pos (Or.inr (Or.inr (Or.inl h3)))]
  rw [if_neg h3]
  simp only
  by_cases h4 : s.adjacent_counts (row, col) = 0
  · rw [if_pos h4, if_pos (Or.inr (Or.inr (Or.inr (Or.inl h4))))]
  rw [if_neg h4]
  by_cases h5 : (((neighborsOf (row, col)).filter (inBounds s.rows s.cols)).filter
      fun q => decide (q ∈ s.flagged)).length ≠ s.adjacent_counts (row, col)
  · rw [if_pos h5, if_pos (Or.inr (Or.inr (Or.inr (Or.inr h5))))]
  · have hnone : ¬(s.game_over = true ∨ ¬ inBounds s.rows s.cols (row, col) = true ∨
        (row, col) ∉ s.revealed ∨ s.adjacent_counts (row, col) = 0 ∨
        (((neighborsOf (row, col)).filter (inBounds s.rows s.cols)).filter
          fun q => decide (q ∈ s.flagged)).length ≠ s.adjacent_counts (row, col)) := by
      rintro (h | h | h | h | h)
      · exact h1 h
      · exact h h2
      · exact h3 h
      · exact h4 h
      · exact h5 h
    rw [if_neg h5, if_neg hnone]
    exact chordLoop_eq_revealSeq s.flagged s.revealed _ s

/-! ## Flood-fill region characterization (C5) -/

/-- The flood-fill branch of `reveal_cell`, as an equation. -/
theorem reveal_cell_flood (board : BoardState) (row col : Int) (mc : Option Nat)
    (sample : List (Int × Int))
    (hinit : board.initialized = true) (hgo : board.game_over = false)
    (hb : inBounds board.rows board.cols (row, col) = true)
    (hf : (row, col) ∉ board.flagged) (hr : (row, col) ∉ board.revealed)
    (hm : (row, col) ∉ board.mines) :
    reveal_cell board row col mc sample = .ok (check_win_condition { board with
      revealed := flood_fill_reveal row col board.rows board.cols
        board.revealed board.flagged board.mines board.adjacent_counts }) := by
  rw [reveal_cell]
  simp [hgo, hb, hinit, hf, hr, hm]
  rfl

theorem countAdjacentMines_eq_zero (r c rows cols : Int)
    (mines : Finset (Int × Int)) (h : countAdjacentMines r c rows cols mines = 0) :
    ∀ q ∈ neighborsOf (r, c), inBounds rows cols q = true → q ∉ mines := by
  intro q hq hqb hqm
  rw [countAdjacentMines, List.length_eq_zero] at h
  have := List.filter_eq_nil.1 h q hq
  simp [hqb, hqm] at this

/-- Cells of the zero-region are in bounds, mine-free and read count
zero (by induction along the region, using correct counts). -/
theorem zeroRegion_props (s : BoardState) (start : Int × Int)
    (hcc : countsCorrect s)
    (hsb : inBounds s.rows s.cols start = true) (hsm : start ∉ s.mines)
    (hs0 : s.adjacent_counts start = 0) :
    ∀ p, InZeroRegion s start p →
      inBounds s.rows s.cols p = true ∧ p ∉ s.mines ∧ s.adjacent_counts p = 0 := by
  intro p hp
  induction hp with
  | refl => exact ⟨hsb, hsm, hs0⟩
  | tail hab hbc ih =>
    rename_i b c
    obtain ⟨hib, hbm, hb0⟩ := ih
    obtain ⟨hcn, hcb, hc0⟩ := hbc
    refine ⟨hcb, ?_, hc0⟩
    have hbeq : s.adjacent_counts b = countAdjacentMines b.1 b.2 s.rows s.cols s.mines := by
      rw [hcc]
      simp only [mkCounts]
      rw [if_pos ⟨hib, hbm⟩]
    rw [hbeq] at hb0
    exact countAdjacentMines_eq_zero b.1 b.2 s.rows s.cols s.mines hb0 c hcn hcb

/-- Reached cells are unflagged, mine-free, and new. -/
theorem floodReach_eligible (rows cols : Int)
    (flagged mines base : Finset (Int × Int)) (counts : (Int × Int) → Nat)
    (start : Int × Int) (hsf : start ∉ flagged) (hsm : start ∉ mines)
    (hsr : start ∉ base) :
    ∀ p, FloodReach rows cols flagged mines base counts start p →
      p ∉ flagged ∧ p ∉ mines ∧ p ∉ base := by
  intro p hp
  induction hp with
  | refl => exact ⟨hsf, hsm, hsr⟩
  | tail hab hbc ih => exact ⟨hbc.2.2.2.1, hbc.2.2.2.2.1, hbc.2.2.2.2.2⟩

/-- The spec's region-plus-border coincides with the cells the flood
fill reaches, provided counts are correct and no cell of the region or
border is flagged or already revealed. -/
theorem region_border_eq_reach (s : BoardState) (start : Int × Int)
    (hcc : countsCorrect s)
    (hsb : inBounds s.rows s.cols start = true) (hsf : start ∉ s.flagged)
    (hsm : start ∉ s.mines) (hsr : start ∉ s.revealed)
    (hs0 : s.adjacent_counts start = 0)
    (hpro : ∀ p, InZeroRegion s start p ∨ InBorder s start p →
      p ∉ s.flagged ∧ p ∉ s.revealed) :
    ∀ p, (InZeroRegion s start p ∨ InBorder s start p) ↔
      FloodReach s.rows s.cols s.flagged s.mines s.revealed
        s.adjacent_counts start p := by
  have hprops := zeroRegion_props s start hcc hsb hsm hs0
  have hregion_reach : ∀ p, InZeroRegion s start p →
      FloodReach s.rows s.cols s.flagged s.mines s.revealed
        s.adjacent_counts start p := by
    intro p hp
    induction hp with
    | refl => exact Relation.ReflTransGen.refl
    | tail hab hbc ih =>
      rename_i b c
      obtain ⟨hcn, hcb, hc0⟩ := hbc
      have hcreg : InZeroRegion s start c := hab.tail ⟨hcn, hcb, hc0⟩
      have hcfr := hpro c (Or.inl hcreg)
      exact ih.tail ⟨(hprops b hab).2.2, hcn, hcb, hcfr.1,
        (hprops c hcreg).2.1, hcfr.2⟩
  intro p
  constructor
  · intro hp
    rcases hp with hp | hp
    · exact hregion_reach p hp
    · obtain ⟨hnr, hqb, p', hp', hqn⟩ := hp
      obtain ⟨hib, hbm, hb0⟩ := hprops p' hp'
      have hqfr := hpro p (Or.inr ⟨hnr, hqb, p', hp', hqn⟩)
      have hbeq : s.adjacent_counts p'
          = countAdjacentMines p'.1 p'.2 s.rows s.cols s.mines := by
        rw [hcc]
        simp only [mkCounts]
        rw [if_pos ⟨hib, hbm⟩]
      have hqm : p ∉ s.mines := by
        rw [hbeq] at hb0
        exact countAdjacentMines_eq_zero p'.1 p'.2 s.rows s.cols s.mines hb0 p hqn hqb
      exact (hregion_reach p' hp').tail ⟨hb0, hqn, hqb, hqfr.1, hqm, hqfr.2⟩
  · intro hp
    induction hp with
    | refl => exact Or.inl Relation.ReflTransGen.refl
    | tail hab hbc ih =>
      rename_i b c
      obtain ⟨hb0, hcn, hcb, hcf, hcm, hcr⟩ := hbc
      have hbreg : InZeroRegion s start b := by
        rcases ih with h | h
        · exact h
        · obtain ⟨hnb, hbb, p', hp', hbn⟩ := h
          exact absurd (hp'.tail ⟨hbn, hbb, hb0⟩) hnb
      by_cases hc0 : s.adjacent_counts c = 0
      · exact Or.inl (hbreg.tail ⟨hcn, hcb, hc0⟩)
      · refine Or.inr ⟨?_, hcb, b, hbreg, hcn⟩
        intro hcreg
        exact hc0 (hprops c hcreg).2.2

/-- C5 (amended): revealing an in-bounds, unflagged, unrevealed,
non-mine cell of adjacent count zero (on an initialized, non-terminal
board with correct counts) reveals exactly the connected zero-region of
the target plus its bordering numbered cells — provided no cell of that
region or border is flagged or already revealed — and never reveals a
flagged cell or a mine.  (Flagged or previously revealed cells block the
traversal, which is why the proviso is needed.) -/
theorem C5_flood_fill_region (s : BoardState) (row col : Int) (mc : Option Nat)
    (sample : List (Int × Int))
    (hinit : s.initialized = true) (hgo : s.game_over = false)
    (hcc : countsCorrect s)
    (hb : inBounds s.rows s.cols (row, col) = true)
    (hf : (row, col) ∉ s.flagged) (hr : (row, col) ∉ s.revealed)
    (hm : (row, col) ∉ s.mines) (h0 : s.adjacent_counts (row, col) = 0)
    (hpro : ∀ p, InZeroRegion s (row, col) p ∨ InBorder s (row, col) p →
      p ∉ s.flagged ∧ p ∉ s.revealed) :
    ∃ t, reveal_cell s row col mc sample = .ok t ∧
      (∀ p, (p ∈ t.revealed ∧ p ∉ s.revealed) ↔
        (InZeroRegion s (row, col) p ∨ InBorder s (row, col) p)) ∧
      (∀ p, p ∈ t.revealed → p ∉ s.revealed → p ∉ s.flagged ∧ p ∉ s.mines) := by
  refine ⟨_, reveal_cell_flood s row col mc sample hinit hgo hb hf hr hm, ?_, ?_⟩
  all_goals
    have hrev : (check_win_condition { s with
        revealed := flood_fill_reveal row col s.rows s.cols
          s.revealed s.flagged s.mines s.adjacent_counts }).revealed
        = flood_fill_reveal row col s.rows s.cols
          s.revealed s.flagged s.mines s.adjacent_counts :=
      (check_win_condition_fields _).2.2.2.1
    have hspec := flood_fill_spec s.rows s.cols s.flagged s.mines s.adjacent_counts
      s.revealed (row, col) hb hf hm hr
    have helig := floodReach_eligible s.rows s.cols s.flagged s.mines s.revealed
      s.adjacent_counts (row, col) hf hm hr
  · have hbridge := region_border_eq_reach s (row, col) hcc hb hf hm hr h0 hpro
    intro p
    rw [hrev]
    constructor
    · rintro ⟨hpF, hpr⟩
      rcases (hspec p).1 hpF with h | h
      · exact absurd h hpr
      · exact (hbridge p).2 h
    · intro hreg
      have hR := (hbridge p).1 hreg
      exact ⟨(hspec p).2 (Or.inr hR), (helig p hR).2.2⟩
  · intro p hpF hpr
    rw [hrev] at hpF
    rcases (hspec p).1 hpF with h | h
    · exact absurd h hpr
    · exact ⟨(helig p h).1, (helig p h).2.1⟩

/-! ## Concrete runs -/

theorem stepA1 : Step bA0 sA1 :=
  Step.reveal 0 0 (some 2) [(0, 2), (0, 4)]
    (Or.inr ⟨2, rfl, by decide, by decide, by decide⟩) rfl

theorem stepA2 : Step sA1 sA2 := Step.toggle sA1 0 2

theorem stepA3 : Step sA2 sA3 := Step.reveal 0 4 none [] (Or.inl (by decide)) rfl

theorem stepAclue : Step sA1 sAclue := Step.clue 0 2 none [] (Or.inl (by decide)) rfl

theorem stepA4 : Step sA1 sA4 := Step.reveal 0 3 none [] (Or.inl (by decide)) rfl

theorem stepA5 : Step sA4 sA5 := Step.reveal 0 5 none [] (Or.inl (by decide)) rfl

theorem initialA : InitialState bA0 := Or.inl ⟨1, 6, by decide, by decide, rfl⟩

theorem reachA1 : Reachable sA1 :=
  ⟨bA0, initialA, Relation.ReflTransGen.single stepA1⟩

theorem reachA2 : Reachable sA2 :=
  ⟨bA0, initialA, (Relation.ReflTransGen.single stepA1).tail stepA2⟩

theorem reachA3 : Reachable sA3 :=
  ⟨bA0, initialA, ((Relation.ReflTransGen.single stepA1).tail stepA2).tail stepA3⟩

theorem reachAclue : Reachable sAclue :=
  ⟨bA0, initialA, (Relation.ReflTransGen.single stepA1).tail stepAclue⟩

theorem reachA5 : Reachable sA5 :=
  ⟨bA0, initialA, ((Relation.ReflTransGen.single stepA1).tail stepA4).tail stepA5⟩

/-- C1, counterexample to the claim as stated: `sA3` is a reachable
lost state (the losing reveal disclosed both mines) whose revealed count
equals `rows*cols - mines`, yet `won = false`.  The cardinality form of
the win condition is therefore not an `iff` on lost boards. -/
theorem C1_cardinality_counterexample :
    Reachable sA3 ∧ sA3.game_over = true ∧ sA3.won = false ∧
      (sA3.revealed.card : Int) = sA3.rows * sA3.cols - (sA3.mines.card : Int) :=
  ⟨reachA3, by decide, by decide, by decide⟩

/-- C1 witness: the amended equivalence, instantiated at the reachable
winning state `sA5`. -/
theorem C1_win_iff_full_coverage_witness :
    Reachable sA5 ∧
      ((sA5.won = true ↔ sA5.initialized = true ∧
        sA5.revealed = gridCells sA5.rows sA5.cols \ sA5.mines) ∧
      (¬(sA5.game_over = true ∧ sA5.won = false) → sA5.initialized = true →
        (sA5.won = true ↔
          (sA5.revealed.card : Int) = sA5.rows * sA5.cols - (sA5.mines.card : Int)))) :=
  ⟨reachA5, C1_win_iff_full_coverage sA5 reachA5⟩

/-- C2, counterexample to the claim as stated: in the reachable lost
state `sA3` the flagged mine (0,2) was also placed into `revealed` by
the losing reveal, so `flagged ∩ revealed ≠ ∅`. -/
theorem C2_overlap_counterexample :
    Reachable sA3 ∧ (0, 2) ∈ sA3.flagged ∧ (0, 2) ∈ sA3.revealed ∧
      sA3.flagged ∩ sA3.revealed ≠ ∅ :=
  ⟨reachA3, by decide, by decide, by decide⟩

/-- C2 witness: the amended disjointness, instantiated at the reachable
active state `sA2` (which has a flag placed). -/
theorem C2_flagged_revealed_disjoint_witness :
    Reachable sA2 ∧ ¬(sA2.game_over = true ∧ sA2.won = false) ∧
      sA2.flagged ∩ sA2.revealed = ∅ :=
  ⟨reachA2, by decide, C2_flagged_revealed_disjoint sA2 reachA2 (by decide)⟩

/-- C3 witness: revealing the unflagged mine (0,4) of `sA2` loses and
reveals both mines. -/
theorem C3_reveal_mine_full_disclosure_witness :
    (sA2.initialized = true ∧ sA2.game_over = false ∧
      inBounds sA2.rows sA2.cols (0, 4) = true ∧ (0, 4) ∈ sA2.mines ∧
      (0, 4) ∉ sA2.flagged ∧ (0, 4) ∉ sA2.revealed) ∧
    (∃ t, reveal_cell sA2 0 4 none [] = .ok t ∧
      t.game_over = true ∧ t.won = false ∧
      t.revealed = sA2.revealed ∪ sA2.mines) :=
  ⟨⟨by decide, by decide, by decide, by decide, by decide, by decide⟩,
    C3_reveal_mine_full_disclosure sA2 0 4 none [] (by decide) (by decide)
      (by decide) (by decide) (by decide) (by decide)⟩

/-- C4 witness: instantiated on a 1×6 grid with safe cell (0,0). -/
theorem C4_initialize_spec_witness :
    inBounds 1 6 (0, 0) = true ∧
    (((2 : Nat) : Int) ≤ 1 * 6 - ((excludedCells 1 6 (0, 0)).card : Int) →
      ∀ sample, ValidSample 1 6 (0, 0) 2 sample →
        ∃ s, initialize_board 1 6 2 (0, 0) sample = .ok s ∧
          s.mines.card = 2 ∧
          (∀ p ∈ excludedCells 1 6 (0, 0), p ∉ s.mines) ∧
          s.initialized = true ∧ s.revealed = ∅ ∧ s.flagged = ∅ ∧
          s.immune_flags = ∅ ∧ s.game_over = false ∧ s.won = false ∧
          s.rows = 1 ∧ s.cols = 6) ∧
    (((2 : Nat) : Int) > 1 * 6 - ((excludedCells 1 6 (0, 0)).card : Int) →
      ∀ sample, ∃ e, initialize_board 1 6 2 (0, 0) sample = .error e) :=
  ⟨by decide, (C4_initialize_spec 1 6 2 (0, 0) (by decide)).1,
    (C4_initialize_spec 1 6 2 (0, 0) (by decide)).2⟩

/-- C6 witness: a clue on the mine (0,2) of `sA1` adds the immune flag
without ending the game. -/
theorem C6_clue_never_loses_witness :
    (sA1.game_over = false ∧ apply_clue sA1 0 2 none [] = .ok sAclue) ∧
    (¬(sAclue.game_over = true ∧ sAclue.won = false) ∧
      (sA1.initialized = true → inBounds sA1.rows sA1.cols (0, 2) = true →
        (0, 2) ∈ sA1.mines → (0, 2) ∉ sA1.flagged → (0, 2) ∉ sA1.revealed →
        sAclue = { sA1 with
            flagged := insert (0, 2) sA1.flagged,
            immune_flags := insert (0, 2) sA1.immune_flags } ∧
          sAclue.game_over = false)) :=
  ⟨⟨by decide, rfl⟩,
    C6_clue_never_loses sA1 sAclue 0 2 none [] (by decide) (Or.inl (by decide)) rfl⟩

/-- C8 witness: the immune flag created by the clue at (0,2) persists
(here along the empty further sequence, and it is in `flagged`). -/
theorem C8_immune_flag_permanence_witness :
    (Reachable sAclue ∧ (0, 2) ∈ sAclue.immune_flags) ∧
      ((0, 2) ∈ sAclue.flagged ∧ (0, 2) ∈ sAclue.immune_flags) :=
  ⟨⟨reachAclue, by decide⟩,
    C8_immune_flag_permanence sAclue sAclue 0 2 reachAclue (by decide)
      Relation.ReflTransGen.refl⟩

/-- C9 witness: the active state `sA1` renders without any mine cell. -/
theorem C9_anti_cheat_projection_witness :
    (Reachable sA1 ∧ sA1.game_over = false) ∧
      (∀ rowCells ∈ (render_for_frontend sA1 false).cells, ∀ cell ∈ rowCells,
        cell ≠ CellState.mineCell ∧ cell ≠ CellState.mineHit) :=
  ⟨⟨reachA1, by decide⟩, C9_anti_cheat_projection sA1 reachA1 (by decide)⟩

/-- C10 witness: the losing reveal `sA2 → sA3` marks every mine
`mine_hit` in the client view. -/
theorem C10_loss_render_mine_hit_witness :
    (Reachable sA2 ∧ sA2.game_over = false ∧
      reveal_cell sA2 0 4 none [] = .ok sA3 ∧
      sA3.game_over = true ∧ sA3.won = false) ∧
    ((∀ p ∈ sA3.mines,
      ((render_for_frontend sA3 false).cells[p.1.toNat]?.bind
        fun rowL => rowL[p.2.toNat]?) = some CellState.mineHit) ∧
    (∀ (b : BoardState) (rm : Bool) (r c : Int),
      cellState b rm r c = CellState.mineCell →
      (r, c) ∈ b.mines ∧ (r, c) ∉ b.revealed ∧ (r, c) ∉ b.flagged)) :=
  ⟨⟨reachA2, by decide, rfl, by decide, by decide⟩,
    C10_loss_render_mine_hit sA2 sA3 0 4 none [] reachA2 (by decide)
      (Or.inl (by decide)) rfl (by decide) (by decide)⟩

theorem stepB1 : Step bB0 sB1 :=
  Step.reveal 0 6 (some 1) [(0, 3)]
    (Or.inr ⟨1, rfl, by decide, by decide, by decide⟩) rfl

theorem stepB2 : Step sB1 sB2 := Step.toggle sB1 0 1

theorem initialB : InitialState bB0 := Or.inl ⟨1, 7, by decide, by decide, rfl⟩

theorem reachB2 : Reachable sB2 :=
  ⟨bB0, initialB, (Relation.ReflTransGen.single stepB1).tail stepB2⟩

/-- C5, counterexample to the claim as stated: on the reachable board
`sB2` every hypothesis of the claim holds for the reveal of (0,0)
(in-bounds, unflagged, unrevealed, non-mine, adjacent count 0,
initialized, non-terminal, counts correct), the cell (0,1) belongs to
the connected zero-region of (0,0), and yet the reveal does not reveal
(0,1): the flag placed on (0,1) blocks the traversal, so the newly
revealed cells are not the entire zero-region plus border. -/
theorem C5_flood_fill_counterexample :
    Reachable sB2 ∧ sB2.initialized = true ∧ sB2.game_over = false ∧
    countsCorrect sB2 ∧ inBounds sB2.rows sB2.cols (0, 0) = true ∧
    (0, 0) ∉ sB2.flagged ∧ (0, 0) ∉ sB2.revealed ∧ (0, 0) ∉ sB2.mines ∧
    sB2.adjacent_counts (0, 0) = 0 ∧
    InZeroRegion sB2 (0, 0) (0, 1) ∧
    reveal_cell sB2 0 0 none [] = .ok sB3 ∧
    (0, 1) ∉ sB3.revealed :=
  ⟨reachB2, by decide, by decide, rfl, by decide, by decide, by decide, by decide,
    by decide,
    Relation.ReflTransGen.single ⟨by decide, by decide, by decide⟩,
    rfl, by decide⟩

/-- C5 witness: the amended flood-fill characterization, instantiated
on the freshly initialized board `sW` at target (0,0) (no flags and
nothing revealed, so the proviso holds trivially). -/
theorem C5_flood_fill_region_witness :
    (sW.initialized = true ∧ sW.game_over = false ∧ countsCorrect sW ∧
      inBounds sW.rows sW.cols (0, 0) = true ∧ (0, 0) ∉ sW.flagged ∧
      (0, 0) ∉ sW.revealed ∧ (0, 0) ∉ sW.mines ∧
      sW.adjacent_counts (0, 0) = 0) ∧
    (∃ t, reveal_cell sW 0 0 none [] = .ok t ∧
      (∀ p, (p ∈ t.revealed ∧ p ∉ sW.revealed) ↔
        (InZeroRegion sW (0, 0) p ∨ InBorder sW (0, 0) p)) ∧
      (∀ p, p ∈ t.revealed → p ∉ sW.revealed → p ∉ sW.flagged ∧ p ∉ sW.mines)) :=
  ⟨⟨by decide, by decide, rfl, by decide, by decide, by decide, by decide, by decide⟩,
    C5_flood_fill_region sW 0 0 none [] (by decide) (by decide) rfl (by decide)
      (by decide) (by decide) (by decide) (by decide)
      (fun p _ => ⟨fun hm => Finset.not_mem_empty p hm,
        fun hm => Finset.not_mem_empty p hm⟩)⟩
